import Mathlib

/-!
# gofakeit: schema-driven XML generation (`xml.go`)

A shallow embedding of `XML`, `xmlMap.MarshalXML` and `xmlMapLoop` from `xml.go`.

* Go values of static type `interface{}` are a closed datatype `Value`, indexed
  by the `reflect.Kind` the encoder dispatches on.
* A Go `map[string]interface{}` is an association list with distinct keys;
  `range` over a map visits the entries in an order the runtime picks anew at
  every `range` statement.  The parameter `iter` of the encoder gives that
  order from the encoder as the statement finds it and the map, so two
  statements of one run are free to visit equal maps in different orders.
* The `encoding/xml` encoder is a token writer: what it has written is the list
  of start tags, character data and end tags, in order.  Character data is the
  text after `xml.EscapeText` replaced the characters outside the XML character
  range by U+FFFD; entity references are not told apart from the characters
  they stand for.
* The generator registry (`GetFuncLookup`, `Info`) is declared outside `xml.go`
  and is a parameter.  The registry and the random source live in a `World`
  that also logs every lookup and every generator call.
-/

set_option autoImplicit false

namespace Gofakeit

/-! ## Go values -/

/-- An `error` value, identified by its message (`err.Error()`). -/
structure GoError where
  msg : String
deriving DecidableEq, Repr

/-- The Go call `errors.New(msg)`. -/
def errorsNew (msg : String) : GoError := ⟨msg⟩

/-- The `reflect.Kind` values `xmlMapLoop` switches on.  `Invalid` is the kind of
`reflect.ValueOf(nil)`; `Other` stands for every kind the switch does not name
besides `Int16`, `Uint16` and `Invalid` (complex numbers, arrays, channels,
functions, pointers, structs, `uintptr`, unsafe pointers). -/
inductive Kind where
  | Invalid
  | Bool
  | Int | Int8 | Int16 | Int32 | Int64
  | Uint | Uint8 | Uint16 | Uint32 | Uint64
  | Float32 | Float64
  | String
  | Slice
  | Map
  | Other
deriving DecidableEq, Repr

/-- The signed integer types. -/
inductive IntType where
  | int | int8 | int16 | int32 | int64
deriving DecidableEq, Repr

/-- The unsigned integer types. -/
inductive UintType where
  | uint | uint8 | uint16 | uint32 | uint64
deriving DecidableEq, Repr

/-- The floating-point types. -/
inductive FloatType where
  | float32 | float64
deriving DecidableEq, Repr

/-- One token written by an `xml.Encoder`. -/
inductive Token where
  | StartElement (name : String)
  | CharData (text : String)
  | EndElement (name : String)
deriving DecidableEq, Repr

/-- A value held in an `interface{}`.

* `int`, `uint`: a value of the predeclared integer type named by the first field.
* `float`: a floating-point value, carried as the decimal text
  `strconv.FormatFloat(v, 'g', -1, bits)` gives for it.
* `strSlice`: a slice whose element kind is `String`.
* `slice elemType elems`: a slice of any other element type; `elemType` is the
  element type as `reflect.Type.String()` prints it (`"int"`, `"interface {}"`).
* `map`: a `map[string]interface{}`, entries with distinct keys.
* `mapOther typ`: a value of kind `Map` whose type is not `map[string]interface{}`
  (`map[string]string`, `map[string]int`, a named map type); `typ` is its type.
* `other typ enc`: a value of any remaining kind; `enc` is what the generic
  `Encoder.Encode` writes for it, `none` when it rejects the type. -/
inductive Value where
  | nil
  | bool (b : Bool)
  | string (s : String)
  | int (t : IntType) (n : Int)
  | uint (t : UintType) (n : Nat)
  | float (t : FloatType) (text : String)
  | strSlice (elems : List String)
  | slice (elemType : String) (elems : List Value)
  | map (entries : List (String × Value))
  | mapOther (typ : String)
  | other (typ : String) (enc : Option (List Token))

/-- The type name of a signed integer type. -/
def IntType.name : IntType → String
  | .int => "int"
  | .int8 => "int8"
  | .int16 => "int16"
  | .int32 => "int32"
  | .int64 => "int64"

/-- The type name of an unsigned integer type. -/
def UintType.name : UintType → String
  | .uint => "uint"
  | .uint8 => "uint8"
  | .uint16 => "uint16"
  | .uint32 => "uint32"
  | .uint64 => "uint64"

/-- The type name of a floating-point type. -/
def FloatType.name : FloatType → String
  | .float32 => "float32"
  | .float64 => "float64"

/-- The kind of a signed integer type. -/
def IntType.kind : IntType → Kind
  | .int => Kind.Int
  | .int8 => Kind.Int8
  | .int16 => Kind.Int16
  | .int32 => Kind.Int32
  | .int64 => Kind.Int64

/-- The kind of an unsigned integer type. -/
def UintType.kind : UintType → Kind
  | .uint => Kind.Uint
  | .uint8 => Kind.Uint8
  | .uint16 => Kind.Uint16
  | .uint32 => Kind.Uint32
  | .uint64 => Kind.Uint64

/-- The kind of a floating-point type. -/
def FloatType.kind : FloatType → Kind
  | .float32 => Kind.Float32
  | .float64 => Kind.Float64

/-- The Go expression `reflect.ValueOf(value).Kind()`. -/
def Value.Kind : Value → Kind
  | .nil => Kind.Invalid
  | .bool _ => Kind.Bool
  | .string _ => Kind.String
  | .int t _ => t.kind
  | .uint t _ => t.kind
  | .float t _ => t.kind
  | .strSlice _ => Kind.Slice
  | .slice _ _ => Kind.Slice
  | .map _ => Kind.Map
  | .mapOther _ => Kind.Map
  | .other _ _ => Kind.Other

/-- The textual form of a scalar: `strconv.FormatBool`, `FormatInt(_, 10)`,
`FormatUint(_, 10)`, `FormatFloat(_, 'g', -1, bits)`, or the string itself.
`none` for a value that is not a scalar. -/
def Value.text : Value → Option String
  | .bool b => some (if b then "true" else "false")
  | .string s => some s
  | .int _ n => some (toString n)
  | .uint _ n => some (toString n)
  | .float _ text => some text
  | _ => none

/-- The Go map type `map[string]interface{}`. -/
abbrev GoMap := List (String × Value)

/-- The Go assignment `m[key] = value`: overwrite the entry of `key`, or add one. -/
def GoMap.set : GoMap → String → Value → GoMap
  | [], key, value => [(key, value)]
  | (k, v) :: rest, key, value =>
    if k = key then (key, value) :: rest else (k, v) :: GoMap.set rest key value

/-- The Go index expression `m[key]` with the comma-ok result. -/
def GoMap.get : GoMap → String → Option Value
  | [], _ => none
  | (k, v) :: rest, key => if k = key then some v else GoMap.get rest key

/-- The texts `v.Index(i).String()` for `i` from `0` to `v.Len() - 1`, for a value
of kind `Slice`.  `reflect.Value.String` returns the string for a value of kind
`String` and the text `<T Value>` for a value of any other type `T`. -/
def Value.indexStrings : Value → List String
  | .strSlice elems => elems
  | .slice elemType elems => elems.map (fun _ => "<" ++ elemType ++ " Value>")
  | _ => []

/-- The type assertion `value.(map[string]interface{})`; `none` when it fails. -/
def Value.assertMap : Value → Option GoMap
  | .map entries => some entries
  | _ => none

/-- The dynamic type of a value, as the panic message of a failed assertion
prints it. -/
def Value.typeString : Value → String
  | .nil => "nil"
  | .bool _ => "bool"
  | .string _ => "string"
  | .int t _ => t.name
  | .uint t _ => t.name
  | .float t _ => t.name
  | .strSlice _ => "[]string"
  | .slice elemType _ => "[]" ++ elemType
  | .map _ => "map[string]interface {}"
  | .mapOther typ => typ
  | .other typ _ => typ

/-! ## The record types of `xml.go` -/

/-- The struct `xmlMap`; `XMLName` is `XMLName.Local`. -/
structure xmlMap where
  XMLName : String
  Map : GoMap

/-- The struct `xmlArray`; `XMLName` is `XMLName.Local`. -/
structure xmlArray where
  XMLName : String
  Array : List xmlMap

/-- The struct `xmlEntry`; `XMLName` is `XMLName.Local`. -/
structure xmlEntry where
  XMLName : String
  Value : Value

/-! ## The `encoding/xml` encoder -/

/-- An `xml.Encoder` writing to a buffer: the indent setting and the tokens
written so far. -/
structure Encoder where
  indent : Bool
  out : List Token
deriving DecidableEq, Repr

/-- How a call on the encoder ends: normally (`ok`, with the encoder as it then
is), with an error, in a panic, or with the model out of nesting fuel. -/
inductive EncResult where
  | ok (e : Encoder)
  | error (err : GoError)
  | panic (msg : String)
  | outOfFuel
deriving DecidableEq, Repr

/-- Append tokens to the output. -/
def Encoder.write (e : Encoder) (ts : List Token) : Encoder :=
  { e with out := e.out ++ ts }

/-- The method `Encoder.EncodeToken` for start and end tags: a tag with an empty
name is refused and nothing is written. -/
def Encoder.EncodeToken (e : Encoder) : Token → Encoder × Option GoError
  | .StartElement name =>
    if name = "" then (e, some ⟨"xml: start tag with no name"⟩)
    else (e.write [.StartElement name], none)
  | .EndElement name =>
    if name = "" then (e, some ⟨"xml: end tag with no name"⟩)
    else (e.write [.EndElement name], none)
  | .CharData text => (e.write [.CharData text], none)

/-- The function `isInCharacterRange` of `encoding/xml`: whether a character may
appear in an XML document. -/
def isInCharacterRange (c : Char) : Bool :=
  c.toNat == 0x09 || c.toNat == 0x0A || c.toNat == 0x0D ||
    (0x20 ≤ c.toNat && c.toNat ≤ 0xD7FF) ||
    (0xE000 ≤ c.toNat && c.toNat ≤ 0xFFFD) ||
    (0x10000 ≤ c.toNat && c.toNat ≤ 0x10FFFF)

/-- The character data `xml.EscapeText` writes for a string: every character
outside the XML character range is replaced by U+FFFD; the other characters are
kept (some of them written as entity references, which stand for the same
character).  A Go string is taken to be valid UTF-8. -/
def xmlText (s : String) : String :=
  String.mk (s.data.map (fun c => if isInCharacterRange c then c else Char.ofNat 0xFFFD))

/-- The character data `encoding/xml` writes for a `,chardata` field of type
`interface{}`: for a string its text through `xml.EscapeText`, for any other
scalar its textual form, nothing for any other value. -/
def chardata (v : Value) : List Token :=
  match v with
  | .string s => [.CharData (xmlText s)]
  | _ =>
    match v.text with
    | some s => [.CharData s]
    | none => []

/-- The element `encoding/xml` writes for a struct or scalar with element name
`name` and content `body`. -/
def element (name : String) (body : List Token) : List Token :=
  .StartElement name :: body ++ [.EndElement name]

/-- The call `e.Encode(xmlEntry{...})`: one element, named by `XMLName` (by the
type name `xmlEntry` when `XMLName.Local` is empty), holding the value as
character data. -/
def Encoder.EncodeEntry (e : Encoder) (x : xmlEntry) : EncResult :=
  .ok (e.write (element (if x.XMLName = "" then "xmlEntry" else x.XMLName) (chardata x.Value)))

/-- The call `e.Encode(value)` of the `default` branch, on a value that is no
`xml.Marshaler`.  The switch sends here the values of kind `Invalid`, `Int16`,
`Uint16` and `Other`: nothing is written for `nil`, an element named after the
type for an integer, and what the value carries for `other`.  For the kinds an
earlier branch takes, which never reach this call, the model writes the same
type-named element for a scalar and reports an unsupported type otherwise. -/
def Encoder.EncodeValue (e : Encoder) (value : Value) : EncResult :=
  match value with
  | .nil => .ok e
  | .other _ (some ts) => .ok (e.write ts)
  | .other typ none => .error ⟨"xml: unsupported type: " ++ typ⟩
  | .strSlice _ | .slice _ _ | .map _ | .mapOther _ =>
    .error ⟨"xml: unsupported type: " ++ value.typeString⟩
  | v => .ok (e.write (element v.typeString (chardata v)))

/-! ## `xmlMapLoop` and `xmlMap.MarshalXML` -/

/-- The inner loop of the `reflect.Slice` branch: one `value` element per text. -/
def sliceLoop : List String → Encoder → EncResult
  | [], e => .ok e
  | s :: rest, e =>
    match e.EncodeEntry { XMLName := "value", Value := .string s } with
    | .ok e1 => sliceLoop rest e1
    | r => r

/-- The body of the `range` loop of `xmlMapLoop` for one entry.  `encodeMap` is
the call `e.Encode(xmlMap{...})`, which runs `MarshalXML` on the nested map. -/
def xmlMapLoopBody (encodeMap : xmlMap → Encoder → EncResult)
    (key : String) (value : Value) (e : Encoder) : EncResult :=
  match value.Kind with
  | .Bool | .String
  | .Int | .Int8 | .Int32 | .Int64
  | .Uint | .Uint8 | .Uint32 | .Uint64
  | .Float32 | .Float64 =>
    e.EncodeEntry { XMLName := key, Value := value }
  | .Slice =>
    let e1 := (e.EncodeToken (.StartElement key)).1
    match sliceLoop value.indexStrings e1 with
    | .ok e2 => .ok (e2.EncodeToken (.EndElement key)).1
    | r => r
  | .Map =>
    match value.assertMap with
    | some m => encodeMap { XMLName := key, Map := m } e
    | none =>
      .panic ("interface conversion: interface {} is " ++ value.typeString ++
        ", not map[string]interface {}")
  | _ => e.EncodeValue value

/-- The `range` loop of `xmlMapLoop` over the entries in the order visited. -/
def xmlMapLoopRange (encodeMap : xmlMap → Encoder → EncResult) :
    List (String × Value) → Encoder → EncResult
  | [], e => .ok e
  | (key, value) :: rest, e =>
    match xmlMapLoopBody encodeMap key value e with
    | .ok e1 => xmlMapLoopRange encodeMap rest e1
    | r => r

/-- The function `xmlMapLoop`: `iter e m.Map` is the order in which this
execution of `range m.Map` visits the entries.  The runtime picks the order
anew at every `range` statement; `iter` is given the encoder as the statement
finds it, and since a start tag is written before every execution of the loop,
no two executions in one run find the same encoder: their orders are
independent of each other, also for equal maps. -/
def xmlMapLoop (encodeMap : xmlMap → Encoder → EncResult)
    (iter : Encoder → GoMap → GoMap) (e : Encoder) (m : xmlMap) : EncResult :=
  xmlMapLoopRange encodeMap (iter e m.Map) e

/-- The method `xmlMap.MarshalXML`; `fuel` bounds the nesting of maps.  The
`start` argument is overwritten by `m.XMLName` before use. -/
def MarshalXML (iter : Encoder → GoMap → GoMap) : Nat → xmlMap → Encoder → EncResult
  | 0, _, _ => .outOfFuel
  | fuel + 1, m, e =>
    if m.Map.length = 0 then .ok e
    else
      match e.EncodeToken (.StartElement m.XMLName) with
      | (_, some err) => .error err
      | (e1, none) =>
        match xmlMapLoop (MarshalXML iter fuel) iter e1 m with
        | .ok e2 =>
          match e2.EncodeToken (.EndElement m.XMLName) with
          | (_, some err) => .error err
          | (e3, none) => .ok e3
        | r => r

/-- The elements of `xmlArray.Array` in turn, each through its `MarshalXML`. -/
def encodeArrayLoop (iter : Encoder → GoMap → GoMap) (fuel : Nat) :
    List xmlMap → Encoder → EncResult
  | [], e => .ok e
  | m :: rest, e =>
    match MarshalXML iter fuel m e with
    | .ok e1 => encodeArrayLoop iter fuel rest e1
    | r => r

/-- The call `x.Encode(xa)` on an `xmlArray`: a struct element named by `XMLName`
(by the type name `xmlArray` when `XMLName.Local` is empty) around the elements
of the field `Array`. -/
def Encoder.EncodeArray (iter : Encoder → GoMap → GoMap) (fuel : Nat) (e : Encoder)
    (xa : xmlArray) : EncResult :=
  let name := if xa.XMLName = "" then "xmlArray" else xa.XMLName
  match encodeArrayLoop iter fuel xa.Array (e.write [.StartElement name]) with
  | .ok e1 => .ok (e1.write [.EndElement name])
  | r => r

/-! ## The generator registry and `XML` -/

/-- One interaction with the generator registry: a `GetFuncLookup(name)` or a
call of the generator found under `name`. -/
inductive RegistryEvent where
  | lookup (name : String)
  | call (name : String)
deriving DecidableEq, Repr

/-- What lies outside the call: the shared random source, of some type `σ`, and
the log of the registry interactions so far. -/
structure World (σ : Type) where
  rand : σ
  log : List RegistryEvent

/-- A registered generator (`Info`, declared outside `xml.go`): `Call` takes the
field parameters, draws from the random source and returns a value and an error. -/
structure Info (P σ : Type) where
  Call : P → σ → (Value × Option GoError) × σ

/-- The generator registry: the function `GetFuncLookup` as a table, `none` for a
name it does not hold (a nil `*Info`). -/
abbrev Registry (P σ : Type) := String → Option (Info P σ)

/-- The struct `Field`; `P` is the type of `Params`. -/
structure Field (P : Type) where
  Name : String
  Function : String
  Params : P

/-- The struct `XMLOptions`; `Type_` is its field `Type`.  `Fields` is a slice:
`none` is the nil slice. -/
structure XMLOptions (P : Type) where
  Type_ : String
  RootElement : String
  RecordElement : String
  RowCount : Int
  Fields : Option (List (Field P))
  Indent : Bool

/-- The entries of a slice, none for the nil slice: what `range` visits. -/
def sliceElems {α : Type} : Option (List α) → List α
  | none => []
  | some l => l

/-- The Go builtin `len` on a slice. -/
def sliceLen {α : Type} (s : Option (List α)) : Int := (sliceElems s).length

/-- The call `GetFuncLookup(name)`, logged. -/
def GetFuncLookup {P σ : Type} (reg : Registry P σ) (name : String) (w : World σ) :
    Option (Info P σ) × World σ :=
  (reg name, { w with log := w.log ++ [.lookup name] })

/-- The call `funcInfo.Call(&field.Params, funcInfo)` of the generator found
under `name`, logged. -/
def callGenerator {P σ : Type} (info : Info P σ) (name : String) (params : P)
    (w : World σ) : (Value × Option GoError) × World σ :=
  ((info.Call params w.rand).1,
    { rand := (info.Call params w.rand).2, log := w.log ++ [.call name] })

/-- The document `b.Bytes()`: determined by the indent setting and the tokens. -/
structure Document where
  indent : Bool
  tokens : List Token
deriving DecidableEq, Repr

/-- How a call of `XML` ends: it returns `(bytes, err)`, it panics, or the model
runs out of nesting fuel. -/
inductive Outcome where
  | returned (bytes : Option Document) (err : Option GoError)
  | panicked (msg : String)
  | outOfFuel
deriving DecidableEq, Repr

/-- The field loop of the `single` branch, from the record `v` built so far. -/
def singleLoop {P σ : Type} (reg : Registry P σ) :
    List (Field P) → xmlMap → World σ → Except GoError xmlMap × World σ
  | [], v, w => (.ok v, w)
  | field :: rest, v, w =>
    match GetFuncLookup reg field.Function w with
    | (none, w1) =>
      (.error (errorsNew ("Invalid function, " ++ field.Function ++ " does not exist")), w1)
    | (some funcInfo, w1) =>
      match callGenerator funcInfo field.Function field.Params w1 with
      | ((_, some err), w2) => (.error err, w2)
      | ((value, none), w2) =>
        singleLoop reg rest { v with Map := v.Map.set field.Name value } w2

/-- The field loop of the `array` branch for record index `i`. -/
def recordLoop {P σ : Type} (reg : Registry P σ) (i : Int) :
    List (Field P) → xmlMap → World σ → Except GoError xmlMap × World σ
  | [], v, w => (.ok v, w)
  | field :: rest, v, w =>
    if field.Function = "autoincrement" then
      recordLoop reg i rest { v with Map := v.Map.set field.Name (.int .int i) } w
    else
      match GetFuncLookup reg field.Function w with
      | (none, w1) =>
        (.error (errorsNew ("Invalid function, " ++ field.Function ++ " does not exist")), w1)
      | (some funcInfo, w1) =>
        match callGenerator funcInfo field.Function field.Params w1 with
        | ((_, some err), w2) => (.error err, w2)
        | ((value, none), w2) =>
          recordLoop reg i rest { v with Map := v.Map.set field.Name value } w2

/-- The loop `for i := 1; i <= xo.RowCount; i++` of the `array` branch, with `n`
iterations left to run and `i` the current index. -/
def arrayLoop {P σ : Type} (reg : Registry P σ) (xo : XMLOptions P) :
    Nat → Int → xmlArray → World σ → Except GoError xmlArray × World σ
  | 0, _, xa, w => (.ok xa, w)
  | n + 1, i, xa, w =>
    match recordLoop reg i (sliceElems xo.Fields)
        { XMLName := xo.RecordElement, Map := [] } w with
    | (.error err, w1) => (.error err, w1)
    | (.ok v, w1) => arrayLoop reg xo n (i + 1) { xa with Array := xa.Array ++ [v] } w1

/-- The two defaulting assignments of `XML` (lines 108 to 114), in order. -/
def applyDefaults {P : Type} (xo : XMLOptions P) : XMLOptions P :=
  let xo1 := if xo.RootElement = "" then { xo with RecordElement := "xml" } else xo
  if xo1.RecordElement = "" then { xo1 with RecordElement := "record" } else xo1

/-- The record the `single` branch assembles from options past the defaults. -/
def assembleSingle {P σ : Type} (reg : Registry P σ) (xo : XMLOptions P) (w : World σ) :
    Except GoError xmlMap × World σ :=
  singleLoop reg (sliceElems xo.Fields) { XMLName := xo.RootElement, Map := [] } w

/-- The array the `array` branch assembles from options past the defaults:
`make([]xmlMap, xo.RowCount)` followed by the row loop. -/
def assembleArray {P σ : Type} (reg : Registry P σ) (xo : XMLOptions P) (w : World σ) :
    Except GoError xmlArray × World σ :=
  arrayLoop reg xo xo.RowCount.toNat 1
    { XMLName := xo.RootElement,
      Array := List.replicate xo.RowCount.toNat { XMLName := "", Map := [] } } w

/-- The end of both branches: what `XML` returns after `x.Encode`. -/
def finish : EncResult → Outcome
  | .ok e => .returned (some { indent := e.indent, tokens := e.out }) none
  | .error err => .returned none (some err)
  | .panic msg => .panicked msg
  | .outOfFuel => .outOfFuel

/-- The result of a call of `XML`: how it ends, the options struct behind the
pointer `xo` as the call leaves it, and the world after it. -/
structure XMLResult (P σ : Type) where
  outcome : Outcome
  xo : XMLOptions P
  world : World σ

/-- The function `XML`. -/
def XML {P σ : Type} (reg : Registry P σ) (iter : Encoder → GoMap → GoMap) (fuel : Nat)
    (xo : XMLOptions P) (w : World σ) : XMLResult P σ :=
  if xo.Type_ ≠ "single" ∧ xo.Type_ ≠ "array" then
    ⟨.returned none (some (errorsNew "Invalid type, must be array or object")), xo, w⟩
  else if xo.Fields.isNone ∨ sliceLen xo.Fields ≤ 0 then
    ⟨.returned none (some (errorsNew "Must pass fields in order to build json object(s)")),
      xo, w⟩
  else
    let xo2 := applyDefaults xo
    if xo2.Type_ = "single" then
      match assembleSingle reg xo2 w with
      | (.error err, w1) => ⟨.returned none (some err), xo2, w1⟩
      | (.ok v, w1) =>
        ⟨finish (MarshalXML iter fuel v { indent := xo2.Indent, out := [] }), xo2, w1⟩
    else if xo2.Type_ = "array" then
      if xo2.RowCount ≤ 0 then
        ⟨.returned none (some (errorsNew "Must have row count")), xo2, w⟩
      else
        match assembleArray reg xo2 w with
        | (.error err, w1) => ⟨.returned none (some err), xo2, w1⟩
        | (.ok xa, w1) =>
          ⟨finish (Encoder.EncodeArray iter fuel { indent := xo2.Indent, out := [] } xa),
            xo2, w1⟩
    else
      ⟨.returned none (some (errorsNew "Invalid type, must be array or object")), xo2, w⟩

/-- An encoder call only appends: when it ends normally, the encoder holds what
it held before the call followed by what the call wrote, and the indent setting
is as before. -/
def Appends (F : Encoder → EncResult) : Prop :=
  ∀ e e1, F e = .ok e1 → ∃ ts, e1 = e.write ts

/-- The items are processed in turn from the encoder `e`, the step of each item
runs on the encoder as the steps before it left it, ends normally and appends
exactly the chunk at its place. -/
def Chain {α : Type} (step : α → Encoder → EncResult) :
    Encoder → List α → List (List Token) → Prop
  | _, [], [] => True
  | e, a :: rest, c :: cs => step a e = .ok (e.write c) ∧ Chain step (e.write c) rest cs
  | _, _, _ => False

/-- The body of the loop of `xmlMapLoop` as a step on one entry. -/
def entryStep (encodeMap : xmlMap → Encoder → EncResult) (kv : String × Value)
    (e : Encoder) : EncResult :=
  xmlMapLoopBody encodeMap kv.1 kv.2 e

/-- The run of `XML` on `xo` from the world `w` reaches, in the world `w1`, the
field of the schema that follows the fields `pre`: every field before it has
resolved and succeeded in this run.  In single mode that is the field loop over
`pre`; in array mode the field is met in row `k + 1`, after `k` rows that
completed and the field loop of row `k + 1` over `pre`. -/
def reachesField {P σ : Type} (reg : Registry P σ) (xo : XMLOptions P) (w : World σ)
    (pre : List (Field P)) (w1 : World σ) : Prop :=
  (xo.Type_ = "single" ∧
    ∃ v1, singleLoop reg pre { XMLName := xo.RootElement, Map := [] } w = (.ok v1, w1)) ∨
  (xo.Type_ = "array" ∧
    ∃ (k : Nat) (xa : xmlArray) (wk : World σ) (v1 : xmlMap),
      (k : Int) < xo.RowCount ∧
      arrayLoop reg (applyDefaults xo) k 1
          { XMLName := xo.RootElement,
            Array := List.replicate xo.RowCount.toNat { XMLName := "", Map := [] } } w =
        (.ok xa, wk) ∧
      recordLoop reg (1 + k) pre
          { XMLName := (applyDefaults xo).RecordElement, Map := [] } wk = (.ok v1, w1))

/-! ## Concrete registry and options for the worked runs -/

/-- A registry of six generators over a random source that holds nothing:
`word` gives a string, `bool` a boolean, `int16` an `int16`, `tags` a slice of
strings, `emptymap` an empty mapping, and `fail` reports the error `boom`. -/
def sampleRegistry : Registry Unit Unit := fun name =>
  if name = "word" then some ⟨fun _ s => ((.string "hello", none), s)⟩
  else if name = "bool" then some ⟨fun _ s => ((.bool true, none), s)⟩
  else if name = "int16" then some ⟨fun _ s => ((.int .int16 5, none), s)⟩
  else if name = "tags" then some ⟨fun _ s => ((.strSlice ["a", "b"], none), s)⟩
  else if name = "emptymap" then some ⟨fun _ s => ((.map [], none), s)⟩
  else if name = "fail" then some ⟨fun _ s => ((.nil, some ⟨"boom"⟩), s)⟩
  else none

/-- The world before a run: nothing logged. -/
def sampleWorld : World Unit := ⟨(), []⟩

/-- Options with the given type, element names, row count and fields, each
field a pair of a name and a function name; no indent. -/
def sampleOptions (type root record : String) (rowCount : Int)
    (fields : List (String × String)) : XMLOptions Unit :=
  { Type_ := type, RootElement := root, RecordElement := record, RowCount := rowCount,
    Fields := some (fields.map (fun f => { Name := f.1, Function := f.2, Params := () })),
    Indent := false }

/-- A registry over a counter as random source with one generator, `flaky`: it
gives a string on the first draw and reports the error `boom` on every later
draw. -/
def flakyRegistry : Registry Unit Nat := fun name =>
  if name = "flaky" then
    some ⟨fun _ s => if s = 0 then ((.string "ok", none), 1) else ((.nil, some ⟨"boom"⟩), s + 1)⟩
  else none

/-- An array request for two rows of an `autoincrement` field and a `word` field. -/
def sampleArrayOptions : XMLOptions Unit :=
  sampleOptions "array" "root" "" 2 [("id", "autoincrement"), ("a", "word")]

/-- The array the assembler builds for `sampleArrayOptions`. -/
def sampleArrayResult : xmlArray :=
  { XMLName := "root",
    Array :=
      [{ XMLName := "", Map := [] }, { XMLName := "", Map := [] },
        { XMLName := "record", Map := [("id", .int .int 1), ("a", .string "hello")] },
        { XMLName := "record", Map := [("id", .int .int 2), ("a", .string "hello")] }] }

/-- The world after the run on `sampleArrayOptions`: two lookups and two calls. -/
def sampleArrayWorld : World Unit :=
  { rand := (), log := [.lookup "word", .call "word", .lookup "word", .call "word"] }

/-- A single request for a `word` field `a` and a `bool` field `b`. -/
def sampleSingleOptions : XMLOptions Unit :=
  sampleOptions "single" "root" "" 0 [("a", "word"), ("b", "bool")]

/-- The document the single-shape property describes for a record of scalars:
the root element around one leaf per field, in schema order. -/
def schemaOrderDocument (root : String) (entries : List (String × Value)) : List Token :=
  element root (entries.flatMap (fun kv => element kv.1 (chardata kv.2)))

mutual
/-- The nesting depth of mappings in a value: the number of nested `MarshalXML`
calls its encoding makes. -/
def Value.depth : Value → Nat
  | .map entries => depthEntries entries + 1
  | .nil => 0
  | .bool _ => 0
  | .string _ => 0
  | .int _ _ => 0
  | .uint _ _ => 0
  | .float _ _ => 0
  | .strSlice _ => 0
  | .slice _ _ => 0
  | .mapOther _ => 0
  | .other _ _ => 0
/-- The largest nesting depth among the values of a list of entries. -/
def depthEntries : List (String × Value) → Nat
  | [] => 0
  | (_, v) :: rest => max v.depth (depthEntries rest)
end

/-- A nested mapping for the worked runs: a city and, one level down, a latitude. -/
def sampleNestedMap : GoMap :=
  [("city", .string "Oslo"), ("geo", .map [("lat", .string "59.9")])]

/-- Whenever the call `F` ends normally on an encoder, the call `G` ends normally
on every encoder, and what the two calls append is the same up to the order of
the tokens. -/
def PermRel (F G : Encoder → EncResult) : Prop :=
  ∀ e e2 e1, F e = .ok e1 →
    ∃ ts1 ts2, e1 = e.write ts1 ∧ G e2 = .ok (e2.write ts2) ∧ ts1.Perm ts2

/-- A record of two string entries, for the runs on iteration order. -/
def sampleRecord : xmlMap :=
  { XMLName := "root", Map := [("a", .string "x"), ("b", .string "y")] }

/-- A registry of two generators that return mappings: `stringmap` gives a
`map[string]string`, `anymap` a `map[string]interface{}` with one entry. -/
def typedMapRegistry : Registry Unit Unit := fun name =>
  if name = "stringmap" then some ⟨fun _ s => ((.mapOther "map[string]string", none), s)⟩
  else if name = "anymap" then some ⟨fun _ s => ((.map [("k", .string "v")], none), s)⟩
  else none

/-! ## `word_grammer.go` -/

/-- The function `sentenceSimple`.  The random source has some type `ρ`;
`phraseNoun` and `phraseVerb`, declared outside `word_grammer.go`, draw from it
and return a phrase and the source after the draw; `ToUpper` is
`unicode.ToUpper`.  A Go string is taken to be valid UTF-8, so that `[]rune(str)`
is the list of its characters and `string(strR)` puts them back.  The result is
`none` when `strR[0]` is out of range. -/
def sentenceSimple {ρ : Type} (phraseNoun phraseVerb : ρ → String × ρ)
    (ToUpper : Char → Char) (r : ρ) : Option String × ρ :=
  let n := phraseNoun r
  let v := phraseVerb n.2
  let str := n.1 ++ " " ++ v.1 ++ "."
  match str.data with
  | [] => (none, v.2)
  | c :: rest => (some (String.mk (ToUpper c :: rest)), v.2)

/-- The struct `Faker`, as far as `word_grammer.go` uses it. -/
structure Faker (ρ : Type) where
  Rand : ρ

/-- The method `(*Faker).SentenceSimple`; the package-level `SentenceSimple` is
this method on the global faker. -/
def Faker.SentenceSimple {ρ : Type} (phraseNoun phraseVerb : ρ → String × ρ)
    (ToUpper : Char → Char) (f : Faker ρ) : Option String × ρ :=
  sentenceSimple phraseNoun phraseVerb ToUpper f.Rand

/-! ## Facts about the defaults -/

theorem applyDefaults_Type {P : Type} (xo : XMLOptions P) :
    (applyDefaults xo).Type_ = xo.Type_ := by
  unfold applyDefaults
  dsimp only
  split <;> split <;> rfl

theorem applyDefaults_RowCount {P : Type} (xo : XMLOptions P) :
    (applyDefaults xo).RowCount = xo.RowCount := by
  unfold applyDefaults
  dsimp only
  split <;> split <;> rfl

theorem applyDefaults_Fields {P : Type} (xo : XMLOptions P) :
    (applyDefaults xo).Fields = xo.Fields := by
  unfold applyDefaults
  dsimp only
  split <;> split <;> rfl

theorem applyDefaults_RootElement {P : Type} (xo : XMLOptions P) :
    (applyDefaults xo).RootElement = xo.RootElement := by
  unfold applyDefaults
  dsimp only
  split <;> split <;> rfl

theorem applyDefaults_Indent {P : Type} (xo : XMLOptions P) :
    (applyDefaults xo).Indent = xo.Indent := by
  unfold applyDefaults
  dsimp only
  split <;> split <;> rfl

theorem applyDefaults_RecordElement {P : Type} (xo : XMLOptions P) :
    (applyDefaults xo).RecordElement =
      if xo.RootElement = "" then "xml"
      else if xo.RecordElement = "" then "record" else xo.RecordElement := by
  unfold applyDefaults
  by_cases h : xo.RootElement = ""
  · simp [h]
  · by_cases h2 : xo.RecordElement = ""
    · simp [h, h2]
    · simp [h, h2]

theorem applyDefaults_RecordElement_ne {P : Type} (xo : XMLOptions P) :
    (applyDefaults xo).RecordElement ≠ "" := by
  rw [applyDefaults_RecordElement]
  by_cases h : xo.RootElement = ""
  · simp [h]
  · by_cases h2 : xo.RecordElement = ""
    · simp [h, h2]
    · simp [h, h2]

theorem finish_error_bytes (r : EncResult) (bytes : Option Document) (err : GoError)
    (h : finish r = .returned bytes (some err)) : bytes = none := by
  cases r <;> simp [finish] at h
  exact h.1.symm

/-! ## The encoder only appends -/

theorem write_nil (e : Encoder) : e.write [] = e := by
  simp [Encoder.write]

theorem write_write (e : Encoder) (a b : List Token) :
    (e.write a).write b = e.write (a ++ b) := by
  simp [Encoder.write]

theorem write_inj {e : Encoder} {a b : List Token} (h : e.write a = e.write b) : a = b := by
  simp only [Encoder.write, Encoder.mk.injEq, true_and] at h
  exact List.append_cancel_left h

theorem write_indent (e : Encoder) (a : List Token) : (e.write a).indent = e.indent := rfl

theorem sliceLoop_eq (l : List String) (e : Encoder) :
    sliceLoop l e =
      .ok (e.write (l.flatMap (fun s => element "value" [.CharData (xmlText s)]))) := by
  induction l generalizing e with
  | nil => simp [sliceLoop, write_nil]
  | cons s rest ih =>
    simp only [sliceLoop, Encoder.EncodeEntry, ih, write_write]
    simp [chardata]

/-- For a value that is not a `map[string]interface{}` the loop body does not
consult the nested encoder, and what it appends does not depend on the encoder
it runs on. -/
theorem xmlMapLoopBody_not_map (enc1 : xmlMap → Encoder → EncResult) (key : String)
    (value : Value) (hv : ∀ m, value ≠ .map m) (e e1 : Encoder)
    (h : xmlMapLoopBody enc1 key value e = .ok e1) :
    ∃ ts, e1 = e.write ts ∧
      ∀ (enc2 : xmlMap → Encoder → EncResult) (e2 : Encoder),
        xmlMapLoopBody enc2 key value e2 = .ok (e2.write ts) := by
  cases value with
  | map m => exact absurd rfl (hv m)
  | int t n =>
    cases t <;>
      simp only [xmlMapLoopBody, Value.Kind, IntType.kind, Encoder.EncodeEntry,
        Encoder.EncodeValue, EncResult.ok.injEq] at h <;>
      exact ⟨_, h.symm, fun _ _ => rfl⟩
  | uint t n =>
    cases t <;>
      simp only [xmlMapLoopBody, Value.Kind, UintType.kind, Encoder.EncodeEntry,
        Encoder.EncodeValue, EncResult.ok.injEq] at h <;>
      exact ⟨_, h.symm, fun _ _ => rfl⟩
  | float t n =>
    cases t <;>
      simp only [xmlMapLoopBody, Value.Kind, FloatType.kind, Encoder.EncodeEntry,
        EncResult.ok.injEq] at h <;>
      exact ⟨_, h.symm, fun _ _ => rfl⟩
  | strSlice elems =>
    simp only [xmlMapLoopBody, Value.Kind, sliceLoop_eq, EncResult.ok.injEq] at h
    by_cases hk : key = ""
    · refine ⟨Value.indexStrings (.strSlice elems) |>.flatMap
          (fun s => element "value" [.CharData (xmlText s)]), ?_, ?_⟩
      · rw [← h]; simp [Encoder.EncodeToken, hk]
      · intro enc2 e2
        simp [xmlMapLoopBody, Value.Kind, sliceLoop_eq, Encoder.EncodeToken, hk]
    · refine ⟨.StartElement key :: (Value.indexStrings (.strSlice elems) |>.flatMap
          (fun s => element "value" [.CharData (xmlText s)])) ++ [.EndElement key], ?_, ?_⟩
      · rw [← h]; simp [Encoder.EncodeToken, hk, Encoder.write]
      · intro enc2 e2
        simp [xmlMapLoopBody, Value.Kind, sliceLoop_eq, Encoder.EncodeToken, hk,
          Encoder.write]
  | slice t elems =>
    simp only [xmlMapLoopBody, Value.Kind, sliceLoop_eq, EncResult.ok.injEq] at h
    by_cases hk : key = ""
    · refine ⟨Value.indexStrings (.slice t elems) |>.flatMap
          (fun s => element "value" [.CharData (xmlText s)]), ?_, ?_⟩
      · rw [← h]; simp [Encoder.EncodeToken, hk]
      · intro enc2 e2
        simp [xmlMapLoopBody, Value.Kind, sliceLoop_eq, Encoder.EncodeToken, hk]
    · refine ⟨.StartElement key :: (Value.indexStrings (.slice t elems) |>.flatMap
          (fun s => element "value" [.CharData (xmlText s)])) ++ [.EndElement key], ?_, ?_⟩
      · rw [← h]; simp [Encoder.EncodeToken, hk, Encoder.write]
      · intro enc2 e2
        simp [xmlMapLoopBody, Value.Kind, sliceLoop_eq, Encoder.EncodeToken, hk,
          Encoder.write]
  | other t enc =>
    cases enc with
    | none => simp [xmlMapLoopBody, Value.Kind, Encoder.EncodeValue] at h
    | some ts =>
      simp only [xmlMapLoopBody, Value.Kind, Encoder.EncodeValue, EncResult.ok.injEq] at h
      exact ⟨ts, h.symm, fun _ _ => rfl⟩
  | mapOther typ => simp [xmlMapLoopBody, Value.Kind, Value.assertMap] at h
  | nil =>
    simp only [xmlMapLoopBody, Value.Kind, Encoder.EncodeValue, EncResult.ok.injEq] at h
    exact ⟨[], by rw [← h, write_nil], fun _ e2 => by
      simp [xmlMapLoopBody, Value.Kind, Encoder.EncodeValue, write_nil]⟩
  | bool b =>
    simp only [xmlMapLoopBody, Value.Kind, Encoder.EncodeEntry, EncResult.ok.injEq] at h
    exact ⟨_, h.symm, fun _ _ => rfl⟩
  | string s =>
    simp only [xmlMapLoopBody, Value.Kind, Encoder.EncodeEntry, EncResult.ok.injEq] at h
    exact ⟨_, h.symm, fun _ _ => rfl⟩

theorem xmlMapLoopBody_map (encodeMap : xmlMap → Encoder → EncResult) (key : String)
    (m : GoMap) (e : Encoder) :
    xmlMapLoopBody encodeMap key (.map m) e = encodeMap { XMLName := key, Map := m } e := by
  simp only [xmlMapLoopBody, Value.Kind, Value.assertMap]

theorem xmlMapLoopBody_appends (encodeMap : xmlMap → Encoder → EncResult)
    (h : ∀ m, Appends (encodeMap m)) (key : String) (value : Value) :
    Appends (xmlMapLoopBody encodeMap key value) := by
  intro e e1 h1
  by_cases hv : ∃ m, value = .map m
  · obtain ⟨m, rfl⟩ := hv
    rw [xmlMapLoopBody_map] at h1
    exact h _ e e1 h1
  · obtain ⟨ts, hts, -⟩ := xmlMapLoopBody_not_map encodeMap key value
      (fun m hm => hv ⟨m, hm⟩) e e1 h1
    exact ⟨ts, hts⟩

/-- The loop over the entries ends normally exactly when the steps of the
entries form a chain, and then it has appended the chunks of the chain. -/
theorem xmlMapLoopRange_of_chain (encodeMap : xmlMap → Encoder → EncResult)
    (l : List (String × Value)) (chunks : List (List Token)) (e : Encoder)
    (h : Chain (entryStep encodeMap) e l chunks) :
    xmlMapLoopRange encodeMap l e = .ok (e.write chunks.flatten) := by
  induction l generalizing e chunks with
  | nil =>
    cases chunks with
    | nil => simp [xmlMapLoopRange, write_nil]
    | cons c cs => simp [Chain] at h
  | cons kv rest ih =>
    cases chunks with
    | nil => simp [Chain] at h
    | cons c cs =>
      obtain ⟨key, value⟩ := kv
      simp only [Chain, entryStep] at h
      simp only [xmlMapLoopRange, h.1]
      rw [ih cs (e.write c) h.2, write_write]
      simp

theorem xmlMapLoopRange_chain (encodeMap : xmlMap → Encoder → EncResult)
    (hu : ∀ m, Appends (encodeMap m)) (l : List (String × Value)) (e e1 : Encoder)
    (h : xmlMapLoopRange encodeMap l e = .ok e1) :
    ∃ chunks : List (List Token),
      Chain (entryStep encodeMap) e l chunks ∧ e1 = e.write chunks.flatten := by
  induction l generalizing e with
  | nil =>
    simp only [xmlMapLoopRange, EncResult.ok.injEq] at h
    exact ⟨[], by simp [Chain], by rw [← h]; simp [write_nil]⟩
  | cons kv rest ih =>
    obtain ⟨key, value⟩ := kv
    simp only [xmlMapLoopRange] at h
    cases h3 : xmlMapLoopBody encodeMap key value e with
    | ok e0 =>
      rw [h3] at h
      simp only at h
      obtain ⟨ts, he0⟩ := xmlMapLoopBody_appends encodeMap hu key value e e0 h3
      subst he0
      obtain ⟨chunks, hch, he1⟩ := ih _ h
      refine ⟨ts :: chunks, ?_, ?_⟩
      · simp only [Chain, entryStep]
        exact ⟨h3, hch⟩
      · rw [he1, write_write]
        simp
    | error err => rw [h3] at h; simp at h
    | panic msg => rw [h3] at h; simp at h
    | outOfFuel => rw [h3] at h; simp at h

theorem xmlMapLoopRange_appends (encodeMap : xmlMap → Encoder → EncResult)
    (hu : ∀ m, Appends (encodeMap m)) (l : List (String × Value)) :
    Appends (xmlMapLoopRange encodeMap l) := by
  intro e e1 h
  obtain ⟨chunks, -, he1⟩ := xmlMapLoopRange_chain encodeMap hu l e e1 h
  exact ⟨_, he1⟩

theorem Chain.length_eq {α : Type} {step : α → Encoder → EncResult} {e : Encoder}
    {l : List α} {chunks : List (List Token)} (h : Chain step e l chunks) :
    chunks.length = l.length := by
  induction l generalizing e chunks with
  | nil =>
    cases chunks with
    | nil => rfl
    | cons c cs => simp [Chain] at h
  | cons a rest ih =>
    cases chunks with
    | nil => simp [Chain] at h
    | cons c cs =>
      simp only [Chain] at h
      simp [ih h.2]

/-- What `MarshalXML` does on a record with entries and a name: start tag, the
loop in the order `iter` gives at that point, end tag. -/
theorem MarshalXML_succ (iter : Encoder → GoMap → GoMap) (fuel : Nat) (m : xmlMap)
    (e : Encoder) (hm : m.Map ≠ []) (hn : m.XMLName ≠ "") :
    MarshalXML iter (fuel + 1) m e =
      match xmlMapLoopRange (MarshalXML iter fuel)
          (iter (e.write [.StartElement m.XMLName]) m.Map)
          (e.write [.StartElement m.XMLName]) with
      | .ok e2 => .ok (e2.write [.EndElement m.XMLName])
      | r => r := by
  have hlen : ¬ m.Map.length = 0 := fun h0 => hm (List.length_eq_zero.mp h0)
  simp only [MarshalXML, hlen, if_false, Encoder.EncodeToken, hn, xmlMapLoop]

theorem MarshalXML_nil (iter : Encoder → GoMap → GoMap) (fuel : Nat) (m : xmlMap)
    (e : Encoder) (hm : m.Map = []) : MarshalXML iter (fuel + 1) m e = .ok e := by
  simp [MarshalXML, hm]

theorem MarshalXML_noname (iter : Encoder → GoMap → GoMap) (fuel : Nat) (m : xmlMap)
    (e : Encoder) (hm : m.Map ≠ []) (hn : m.XMLName = "") :
    MarshalXML iter (fuel + 1) m e = .error ⟨"xml: start tag with no name"⟩ := by
  have hlen : ¬ m.Map.length = 0 := fun h0 => hm (List.length_eq_zero.mp h0)
  simp [MarshalXML, hlen, Encoder.EncodeToken, hn]

theorem MarshalXML_appends (iter : Encoder → GoMap → GoMap) (fuel : Nat) (m : xmlMap) :
    Appends (MarshalXML iter fuel m) := by
  induction fuel generalizing m with
  | zero =>
    intro e e1 h1
    simp [MarshalXML] at h1
  | succ fuel ih =>
    intro e e1 h1
    by_cases hm : m.Map = []
    · rw [MarshalXML_nil iter fuel m e hm] at h1
      simp only [EncResult.ok.injEq] at h1
      exact ⟨[], by rw [← h1, write_nil]⟩
    · by_cases hn : m.XMLName = ""
      · rw [MarshalXML_noname iter fuel m e hm hn] at h1
        simp at h1
      · rw [MarshalXML_succ iter fuel m e hm hn] at h1
        cases h3 : xmlMapLoopRange (MarshalXML iter fuel)
            (iter (e.write [Token.StartElement m.XMLName]) m.Map)
            (e.write [Token.StartElement m.XMLName]) with
        | ok e0 =>
          rw [h3] at h1
          simp only [EncResult.ok.injEq] at h1
          obtain ⟨ts, hts⟩ := xmlMapLoopRange_appends (MarshalXML iter fuel) ih _ _ _ h3
          exact ⟨_, by rw [← h1, hts, write_write, write_write]⟩
        | error err => rw [h3] at h1; simp at h1
        | panic msg => rw [h3] at h1; simp at h1
        | outOfFuel => rw [h3] at h1; simp at h1

/-! ## Validation and the error surface -/

/-- C1: when `Type` is neither `single` nor `array`, or `Fields` is nil or empty,
or `Type` is `array` with `RowCount <= 0`, `XML` returns nil bytes and an error,
and the world is as before the call: no generator was looked up or invoked. -/
theorem XML_validation_failure {P σ : Type} (reg : Registry P σ) (iter : Encoder → GoMap → GoMap)
    (fuel : Nat) (xo : XMLOptions P) (w : World σ)
    (h : (xo.Type_ ≠ "single" ∧ xo.Type_ ≠ "array") ∨
      (xo.Fields = none ∨ xo.Fields = some []) ∨
      (xo.Type_ = "array" ∧ xo.RowCount ≤ 0)) :
    (∃ err, (XML reg iter fuel xo w).outcome = .returned none (some err)) ∧
      (XML reg iter fuel xo w).world = w := by
  unfold XML
  by_cases h1 : xo.Type_ ≠ "single" ∧ xo.Type_ ≠ "array"
  · rw [if_pos h1]
    exact ⟨⟨_, rfl⟩, rfl⟩
  · rw [if_neg h1]
    by_cases h2 : xo.Fields.isNone ∨ sliceLen xo.Fields ≤ 0
    · rw [if_pos h2]
      exact ⟨⟨_, rfl⟩, rfl⟩
    · rw [if_neg h2]
      rcases h with h | h | h
      · exact absurd h h1
      · exfalso
        apply h2
        rcases h with h | h
        · left; simp [h]
        · right; simp [h, sliceLen, sliceElems]
      · have hs : ¬ xo.Type_ = "single" := by
          rw [h.1]; decide
        simp only [applyDefaults_Type, applyDefaults_RowCount, hs, h.1, h.2, if_true,
          if_false]
        exact ⟨⟨_, rfl⟩, rfl⟩

/-- Witness of C1: an array request with row count zero. -/
theorem XML_validation_failure_witness :
    ((sampleOptions "array" "root" "" 0 [("a", "word")]).Type_ = "array" ∧
        (sampleOptions "array" "root" "" 0 [("a", "word")]).RowCount ≤ 0) ∧
      (∃ err, (XML sampleRegistry (fun _ => id) 1 (sampleOptions "array" "root" "" 0 [("a", "word")])
          sampleWorld).outcome = .returned none (some err)) ∧
      (XML sampleRegistry (fun _ => id) 1 (sampleOptions "array" "root" "" 0 [("a", "word")])
          sampleWorld).world = sampleWorld :=
  ⟨⟨by decide, by decide⟩,
    XML_validation_failure sampleRegistry (fun _ => id) 1
      (sampleOptions "array" "root" "" 0 [("a", "word")]) sampleWorld
      (Or.inr (Or.inr ⟨by decide, by decide⟩))⟩

/-- C2: whenever `XML` returns a non-nil error, the byte slice it returns is nil. -/
theorem XML_no_bytes_with_error {P σ : Type} (reg : Registry P σ) (iter : Encoder → GoMap → GoMap)
    (fuel : Nat) (xo : XMLOptions P) (w : World σ) (bytes : Option Document) (err : GoError)
    (h : (XML reg iter fuel xo w).outcome = .returned bytes (some err)) : bytes = none := by
  unfold XML at h
  split at h
  · simp at h; exact h.1.symm
  · split at h
    · simp at h; exact h.1.symm
    · dsimp only at h
      split at h
      · split at h
        · simp at h; exact h.1.symm
        · exact finish_error_bytes _ _ _ h
      · split at h
        · split at h
          · simp at h; exact h.1.symm
          · split at h
            · simp at h; exact h.1.symm
            · exact finish_error_bytes _ _ _ h
        · simp at h; exact h.1.symm

/-- Witness of C2: a run in which a generator reports an error. -/
theorem XML_no_bytes_with_error_witness :
    (XML sampleRegistry (fun _ => id) 1 (sampleOptions "single" "root" "" 0 [("age", "fail")])
        sampleWorld).outcome = .returned none (some ⟨"boom"⟩) ∧
      (none : Option Document) = none :=
  ⟨by decide,
    XML_no_bytes_with_error sampleRegistry (fun _ => id) 1
      (sampleOptions "single" "root" "" 0 [("age", "fail")]) sampleWorld none ⟨"boom"⟩
      (by decide)⟩

/-! ## Element names -/

/-- C3, at the failing input: a `single` request with an empty `RootElement` and
one field.  The assignment meant for `RootElement` lands on `RecordElement`: the
root record keeps the empty name, and the encoder refuses the nameless start
tag, so the call fails. -/
theorem XML_empty_root_single :
    ((assembleSingle sampleRegistry
        (applyDefaults (sampleOptions "single" "" "" 0 [("a", "word")]))
        sampleWorld).1.toOption.map xmlMap.XMLName) = some "" ∧
      (XML sampleRegistry (fun _ => id) 1 (sampleOptions "single" "" "" 0 [("a", "word")])
        sampleWorld).xo.RecordElement = "xml" ∧
      (XML sampleRegistry (fun _ => id) 1 (sampleOptions "single" "" "" 0 [("a", "word")])
        sampleWorld).outcome = .returned none (some ⟨"xml: start tag with no name"⟩) := by
  refine ⟨by decide, by decide, by decide⟩

/-- C4, at the failing input: an `array` request with an empty `RootElement` and
`RecordElement` set to `item`.  The record element is named `xml`, not `item`,
and the root falls back to the type name `xmlArray`. -/
theorem XML_empty_root_array :
    (XML sampleRegistry (fun _ => id) 1 (sampleOptions "array" "" "item" 1 [("a", "word")])
        sampleWorld).outcome =
      .returned (some ⟨false,
        [.StartElement "xmlArray", .StartElement "xml", .StartElement "a",
          .CharData "hello", .EndElement "a", .EndElement "xml",
          .EndElement "xmlArray"]⟩) none := by
  decide

/-! ## The loops of the assembler, split -/

theorem singleLoop_append {P σ : Type} (reg : Registry P σ) (pre rest : List (Field P))
    (v : xmlMap) (w : World σ) :
    singleLoop reg (pre ++ rest) v w =
      match singleLoop reg pre v w with
      | (.ok v1, w1) => singleLoop reg rest v1 w1
      | (.error err, w1) => (.error err, w1) := by
  induction pre generalizing v w with
  | nil => rfl
  | cons g pre ih =>
    simp only [List.cons_append, singleLoop]
    split
    · rfl
    · split
      · rfl
      · exact ih _ _

theorem recordLoop_append {P σ : Type} (reg : Registry P σ) (i : Int)
    (pre rest : List (Field P)) (v : xmlMap) (w : World σ) :
    recordLoop reg i (pre ++ rest) v w =
      match recordLoop reg i pre v w with
      | (.ok v1, w1) => recordLoop reg i rest v1 w1
      | (.error err, w1) => (.error err, w1) := by
  induction pre generalizing v w with
  | nil => rfl
  | cons g pre ih =>
    simp only [List.cons_append, recordLoop]
    split
    · exact ih _ _
    · split
      · rfl
      · split
        · rfl
        · exact ih _ _

theorem arrayLoop_add {P σ : Type} (reg : Registry P σ) (xo : XMLOptions P) (k j : Nat)
    (i : Int) (xa : xmlArray) (w : World σ) :
    arrayLoop reg xo (k + j) i xa w =
      match arrayLoop reg xo k i xa w with
      | (.ok xa1, w1) => arrayLoop reg xo j (i + k) xa1 w1
      | (.error err, w1) => (.error err, w1) := by
  induction k generalizing i xa w with
  | zero => simp [arrayLoop]
  | succ k ih =>
    rw [show k + 1 + j = (k + j) + 1 by omega]
    simp only [arrayLoop]
    split
    · rfl
    · rw [ih]
      have : i + 1 + (k : Int) = i + ((k + 1 : Nat) : Int) := by push_cast; omega
      rw [this]

/-! ## Unfolding `XML` on valid options -/

theorem XML_single_eq {P σ : Type} (reg : Registry P σ) (iter : Encoder → GoMap → GoMap) (fuel : Nat)
    (xo : XMLOptions P) (w : World σ) (fs : List (Field P))
    (hT : xo.Type_ = "single") (hF : xo.Fields = some fs) (hne : fs ≠ []) :
    XML reg iter fuel xo w =
      match assembleSingle reg (applyDefaults xo) w with
      | (.error err, w1) => ⟨.returned none (some err), applyDefaults xo, w1⟩
      | (.ok v, w1) =>
        ⟨finish (MarshalXML iter fuel v { indent := xo.Indent, out := [] }),
          applyDefaults xo, w1⟩ := by
  have h1 : ¬ (xo.Type_ ≠ "single" ∧ xo.Type_ ≠ "array") := by simp [hT]
  have h2 : ¬ (xo.Fields.isNone ∨ sliceLen xo.Fields ≤ 0) := by
    cases fs with
    | nil => exact absurd rfl hne
    | cons a l =>
      simp only [hF, sliceLen, sliceElems, Option.isNone_some, List.length_cons]
      push_cast
      intro h
      rcases h with h | h
      · exact absurd h (by decide)
      · omega
  unfold XML
  rw [if_neg h1, if_neg h2]
  simp only [applyDefaults_Type, hT, if_true, applyDefaults_Indent]

theorem XML_array_eq {P σ : Type} (reg : Registry P σ) (iter : Encoder → GoMap → GoMap) (fuel : Nat)
    (xo : XMLOptions P) (w : World σ) (fs : List (Field P))
    (hT : xo.Type_ = "array") (hF : xo.Fields = some fs) (hne : fs ≠ [])
    (hR : 0 < xo.RowCount) :
    XML reg iter fuel xo w =
      match assembleArray reg (applyDefaults xo) w with
      | (.error err, w1) => ⟨.returned none (some err), applyDefaults xo, w1⟩
      | (.ok xa, w1) =>
        ⟨finish (Encoder.EncodeArray iter fuel { indent := xo.Indent, out := [] } xa),
          applyDefaults xo, w1⟩ := by
  have h1 : ¬ (xo.Type_ ≠ "single" ∧ xo.Type_ ≠ "array") := by simp [hT]
  have h2 : ¬ (xo.Fields.isNone ∨ sliceLen xo.Fields ≤ 0) := by
    cases fs with
    | nil => exact absurd rfl hne
    | cons a l =>
      simp only [hF, sliceLen, sliceElems, Option.isNone_some, List.length_cons]
      push_cast
      intro h
      rcases h with h | h
      · exact absurd h (by decide)
      · omega
  have h3 : ¬ ("array" : String) = "single" := by decide
  have h4 : ¬ xo.RowCount ≤ 0 := by omega
  unfold XML
  rw [if_neg h1, if_neg h2]
  simp only [applyDefaults_Type, applyDefaults_RowCount, hT, h3, h4, if_true, if_false,
    applyDefaults_Indent]

/-! ## Generator failures -/

/-- When the run reaches a field and the field loop, from there on, ends with an
error, in whatever record it is building, `XML` returns nil bytes and that
error. -/
theorem XML_error_at_field {P σ : Type} (reg : Registry P σ)
    (iter : Encoder → GoMap → GoMap) (fuel : Nat) (xo : XMLOptions P) (w w1 : World σ)
    (pre post : List (Field P)) (f : Field P) (err : GoError)
    (hF : xo.Fields = some (pre ++ f :: post))
    (hreach : reachesField reg xo w pre w1)
    (hsingle : xo.Type_ = "single" →
      ∀ v1, ∃ w2, singleLoop reg (f :: post) v1 w1 = (.error err, w2))
    (harray : xo.Type_ = "array" →
      ∀ i v1, ∃ w2, recordLoop reg i (f :: post) v1 w1 = (.error err, w2)) :
    (XML reg iter fuel xo w).outcome = .returned none (some err) := by
  have hne : pre ++ f :: post ≠ [] := by simp
  rcases hreach with ⟨hT, v1, hrun⟩ | ⟨hT, k, xa, wk, v1, hk, hrows, hrun⟩
  · obtain ⟨w2, h2⟩ := hsingle hT v1
    rw [XML_single_eq reg iter fuel xo w _ hT hF hne]
    unfold assembleSingle
    rw [applyDefaults_Fields, hF, applyDefaults_RootElement]
    simp only [sliceElems]
    rw [singleLoop_append, hrun]
    simp only [h2]
  · obtain ⟨w2, h2⟩ := harray hT (1 + k) v1
    have hR : 0 < xo.RowCount := by omega
    rw [XML_array_eq reg iter fuel xo w _ hT hF hne hR]
    obtain ⟨j, hj⟩ : ∃ j, xo.RowCount.toNat = k + (j + 1) :=
      ⟨xo.RowCount.toNat - k - 1, by omega⟩
    unfold assembleArray
    rw [applyDefaults_RowCount, applyDefaults_RootElement]
    rw [hj, arrayLoop_add]
    rw [← hj, hrows]
    simp only [arrayLoop, applyDefaults_Fields, hF, sliceElems]
    rw [recordLoop_append]
    rw [hrun]
    simp only [h2]

/-- C7: on options that pass validation, when the run reaches a field (not an
`autoincrement` field in array mode) whose function the registry does not hold,
every field before it having resolved and succeeded, `XML` returns nil bytes
and an error whose message is `Invalid function, <name> does not exist`, which
contains the function name. -/
theorem XML_unknown_function {P σ : Type} (reg : Registry P σ)
    (iter : Encoder → GoMap → GoMap) (fuel : Nat) (xo : XMLOptions P) (w w1 : World σ)
    (pre post : List (Field P)) (f : Field P)
    (hF : xo.Fields = some (pre ++ f :: post))
    (hreach : reachesField reg xo w pre w1)
    (hauto : xo.Type_ = "array" → f.Function ≠ "autoincrement")
    (hf : reg f.Function = none) :
    ∃ err, (XML reg iter fuel xo w).outcome = .returned none (some err) ∧
      err.msg = "Invalid function, " ++ f.Function ++ " does not exist" ∧
      f.Function.data <:+: err.msg.data := by
  refine ⟨⟨"Invalid function, " ++ f.Function ++ " does not exist"⟩, ?_, rfl, ?_⟩
  · apply XML_error_at_field reg iter fuel xo w w1 pre post f _ hF hreach
    · intro _ v1
      exact ⟨_, by simp only [singleLoop, GetFuncLookup, hf, errorsNew]; rfl⟩
    · intro hT i v1
      exact ⟨_, by
        simp only [recordLoop, hauto hT, if_false, GetFuncLookup, hf, errorsNew]; rfl⟩
  · refine ⟨"Invalid function, ".data, " does not exist".data, ?_⟩
    simp [String.data_append]

/-- Witness of C7: the second field names `doesNotExist`. -/
theorem XML_unknown_function_witness :
    sampleRegistry "doesNotExist" = none ∧
      ∃ err,
        (XML sampleRegistry (fun _ => id) 1
            (sampleOptions "single" "root" "" 0 [("a", "word"), ("b", "doesNotExist")])
            sampleWorld).outcome = .returned none (some err) ∧
          err.msg = "Invalid function, " ++ "doesNotExist" ++ " does not exist" ∧
          "doesNotExist".data <:+: err.msg.data :=
  ⟨rfl,
    XML_unknown_function sampleRegistry (fun _ => id) 1
      (sampleOptions "single" "root" "" 0 [("a", "word"), ("b", "doesNotExist")])
      sampleWorld { rand := (), log := [.lookup "word", .call "word"] }
      [{ Name := "a", Function := "word", Params := () }] []
      { Name := "b", Function := "doesNotExist", Params := () }
      rfl
      (Or.inl ⟨rfl, { XMLName := "root", Map := [("a", .string "hello")] }, rfl⟩)
      (fun h => absurd h (by decide))
      rfl⟩

/-- C8 as stated fails: the field `age` uses a generator that reports `boom`;
`XML` returns the error `boom`, whose message does not contain the field name. -/
theorem XML_generator_error_not_wrapped :
    (XML sampleRegistry (fun _ => id) 1 (sampleOptions "single" "root" "" 0 [("age", "fail")])
        sampleWorld).outcome = .returned none (some ⟨"boom"⟩) ∧
      ¬ ("age".data <:+: "boom".data) := by
  refine ⟨by decide, by decide⟩

/-- C8, amended: on options that pass validation, when the run reaches a field
(not an `autoincrement` field in array mode), every field before it having
resolved and succeeded, and the generator of that field reports the error
`gerr` on this call, `XML` returns nil bytes and `gerr` itself, with nothing
added to it. -/
theorem XML_generator_error {P σ : Type} (reg : Registry P σ)
    (iter : Encoder → GoMap → GoMap) (fuel : Nat) (xo : XMLOptions P) (w w1 : World σ)
    (pre post : List (Field P)) (f : Field P) (info : Info P σ) (gerr : GoError)
    (hF : xo.Fields = some (pre ++ f :: post))
    (hreach : reachesField reg xo w pre w1)
    (hauto : xo.Type_ = "array" → f.Function ≠ "autoincrement")
    (hf : reg f.Function = some info)
    (herr : (info.Call f.Params w1.rand).1.2 = some gerr) :
    (XML reg iter fuel xo w).outcome = .returned none (some gerr) := by
  rcases hres : info.Call f.Params w1.rand with ⟨⟨val, e⟩, s1⟩
  rw [hres] at herr
  simp only at herr
  subst herr
  apply XML_error_at_field reg iter fuel xo w w1 pre post f _ hF hreach
  · intro _ v1
    exact ⟨_, by simp only [singleLoop, GetFuncLookup, callGenerator, hf, hres]; rfl⟩
  · intro hT i v1
    exact ⟨_, by
      simp only [recordLoop, hauto hT, if_false, GetFuncLookup, callGenerator, hf, hres]; rfl⟩

/-- Witness of C8, amended: the generator `flaky` succeeds in the first row of an
array request and reports `boom` in the second. -/
theorem XML_generator_error_witness :
    ((flakyRegistry "flaky").map (fun info => (info.Call () 1).1.2)) = some (some ⟨"boom"⟩) ∧
      (XML flakyRegistry (fun _ => id) 1
          { Type_ := "array", RootElement := "root", RecordElement := "", RowCount := 2,
            Fields := some [{ Name := "x", Function := "flaky", Params := () }],
            Indent := false }
          { rand := 0, log := [] }).outcome = .returned none (some ⟨"boom"⟩) :=
  ⟨rfl,
    XML_generator_error flakyRegistry (fun _ => id) 1
      { Type_ := "array", RootElement := "root", RecordElement := "", RowCount := 2,
        Fields := some [{ Name := "x", Function := "flaky", Params := () }],
        Indent := false }
      { rand := 0, log := [] }
      { rand := 1, log := [.lookup "flaky", .call "flaky"] }
      [] [] { Name := "x", Function := "flaky", Params := () }
      ⟨fun _ s => if s = 0 then ((.string "ok", none), 1) else ((.nil, some ⟨"boom"⟩), s + 1)⟩
      ⟨"boom"⟩
      rfl
      (Or.inr ⟨rfl, 1,
        { XMLName := "root",
          Array := [{ XMLName := "", Map := [] }, { XMLName := "", Map := [] },
            { XMLName := "record", Map := [("x", .string "ok")] }] },
        { rand := 1, log := [.lookup "flaky", .call "flaky"] },
        { XMLName := "record", Map := [] }, by decide, rfl, rfl⟩)
      (fun _ => by decide)
      rfl rfl⟩

/-! ## Record elements of an array document -/

theorem MarshalXML_ok {iter : Encoder → GoMap → GoMap} {fuel : Nat} {m : xmlMap}
    {e e1 : Encoder} (h : MarshalXML iter fuel m e = .ok e1) :
    (m.Map = [] ∧ e1 = e) ∨
      (m.Map ≠ [] ∧ m.XMLName ≠ "" ∧ ∃ body, e1 = e.write (element m.XMLName body)) := by
  cases fuel with
  | zero => simp [MarshalXML] at h
  | succ fuel =>
    by_cases hm : m.Map = []
    · left
      rw [MarshalXML_nil iter fuel m e hm] at h
      simp only [EncResult.ok.injEq] at h
      exact ⟨hm, h.symm⟩
    · right
      by_cases hn : m.XMLName = ""
      · rw [MarshalXML_noname iter fuel m e hm hn] at h
        simp at h
      · refine ⟨hm, hn, ?_⟩
        rw [MarshalXML_succ iter fuel m e hm hn] at h
        cases h3 : xmlMapLoopRange (MarshalXML iter fuel)
            (iter (e.write [Token.StartElement m.XMLName]) m.Map)
            (e.write [Token.StartElement m.XMLName]) with
        | ok e0 =>
          rw [h3] at h
          simp only [EncResult.ok.injEq] at h
          obtain ⟨ts, hts⟩ := xmlMapLoopRange_appends (MarshalXML iter fuel)
            (MarshalXML_appends iter fuel) _ _ _ h3
          refine ⟨ts, ?_⟩
          rw [← h, hts, write_write, write_write]
          simp [element]
        | error err => rw [h3] at h; simp at h
        | panic msg => rw [h3] at h; simp at h
        | outOfFuel => rw [h3] at h; simp at h

/-- The loop over the array ends normally exactly when the `MarshalXML` calls of
its entries form a chain, and then it has appended the chunks of the chain. -/
theorem encodeArrayLoop_of_chain (iter : Encoder → GoMap → GoMap) (fuel : Nat)
    (ms : List xmlMap) (chunks : List (List Token)) (e : Encoder)
    (h : Chain (MarshalXML iter fuel) e ms chunks) :
    encodeArrayLoop iter fuel ms e = .ok (e.write chunks.flatten) := by
  induction ms generalizing e chunks with
  | nil =>
    cases chunks with
    | nil => simp [encodeArrayLoop, write_nil]
    | cons c cs => simp [Chain] at h
  | cons m rest ih =>
    cases chunks with
    | nil => simp [Chain] at h
    | cons c cs =>
      simp only [Chain] at h
      simp only [encodeArrayLoop, h.1]
      rw [ih cs (e.write c) h.2, write_write]
      simp

theorem encodeArrayLoop_chain (iter : Encoder → GoMap → GoMap) (fuel : Nat)
    (ms : List xmlMap) (e e1 : Encoder) (h : encodeArrayLoop iter fuel ms e = .ok e1) :
    ∃ chunks : List (List Token),
      Chain (MarshalXML iter fuel) e ms chunks ∧ e1 = e.write chunks.flatten := by
  induction ms generalizing e with
  | nil =>
    simp only [encodeArrayLoop, EncResult.ok.injEq] at h
    exact ⟨[], by simp [Chain], by rw [← h]; simp [write_nil]⟩
  | cons m rest ih =>
    simp only [encodeArrayLoop] at h
    cases h3 : MarshalXML iter fuel m e with
    | ok e0 =>
      rw [h3] at h
      simp only at h
      obtain ⟨ts, he0⟩ := MarshalXML_appends iter fuel m e e0 h3
      subst he0
      obtain ⟨chunks, hch, he1⟩ := ih _ h
      refine ⟨ts :: chunks, ?_, ?_⟩
      · simp only [Chain]
        exact ⟨h3, hch⟩
      · rw [he1, write_write]
        simp
    | error err => rw [h3] at h; simp at h
    | panic msg => rw [h3] at h; simp at h
    | outOfFuel => rw [h3] at h; simp at h

/-- The zero-valued entries that `make` puts in front of the array write
nothing: with fuel, the loop over the array is the loop over what follows. -/
theorem encodeArrayLoop_replicate (iter : Encoder → GoMap → GoMap) (fuel n : Nat)
    (recs : List xmlMap) (e : Encoder) :
    encodeArrayLoop iter (fuel + 1)
        (List.replicate n { XMLName := "", Map := [] } ++ recs) e =
      encodeArrayLoop iter (fuel + 1) recs e := by
  induction n with
  | zero => rfl
  | succ n ih =>
    simp only [List.replicate_succ, List.cons_append, encodeArrayLoop]
    rw [MarshalXML_nil iter fuel _ e rfl]
    exact ih

/-- In a chain over records that all have entries and the name `record`, every
chunk is one element named `record`. -/
theorem Chain.record_elements (iter : Encoder → GoMap → GoMap) (fuel : Nat)
    (record : String) (recs : List xmlMap)
    (hrecs : ∀ v ∈ recs, v.XMLName = record ∧ v.Map ≠ []) (e : Encoder)
    (chunks : List (List Token)) (h : Chain (MarshalXML iter fuel) e recs chunks) :
    ∃ bodies : List (List Token), chunks = bodies.map (element record) := by
  induction recs generalizing e chunks with
  | nil =>
    cases chunks with
    | nil => exact ⟨[], rfl⟩
    | cons c cs => simp [Chain] at h
  | cons v rest ih =>
    cases chunks with
    | nil => simp [Chain] at h
    | cons c cs =>
      simp only [Chain] at h
      obtain ⟨bodies, hb⟩ := ih (fun v2 hv2 => hrecs v2 (List.mem_cons_of_mem _ hv2)) _ _ h.2
      obtain ⟨hname, hmap⟩ := hrecs v (List.mem_cons_self _ _)
      rcases MarshalXML_ok h.1 with ⟨hm, -⟩ | ⟨-, -, body, hbody⟩
      · exact absurd hm hmap
      · refine ⟨body :: bodies, ?_⟩
        rw [List.map_cons, ← hb, ← hname, write_inj hbody]

theorem GoMap.set_ne_nil (m : GoMap) (k : String) (v : Value) : GoMap.set m k v ≠ [] := by
  cases m with
  | nil => simp [GoMap.set]
  | cons kv rest =>
    obtain ⟨k1, v1⟩ := kv
    simp only [GoMap.set]
    split <;> simp

theorem recordLoop_ok {P σ : Type} (reg : Registry P σ) (i : Int) (fs : List (Field P))
    (v v1 : xmlMap) (w w1 : World σ) (h : recordLoop reg i fs v w = (.ok v1, w1)) :
    v1.XMLName = v.XMLName ∧ ((fs ≠ [] ∨ v.Map ≠ []) → v1.Map ≠ []) := by
  induction fs generalizing v w with
  | nil =>
    simp only [recordLoop, Prod.mk.injEq, Except.ok.injEq] at h
    rw [← h.1]
    exact ⟨rfl, fun h2 => h2.resolve_left (fun h3 => h3 rfl)⟩
  | cons f rest ih =>
    simp only [recordLoop] at h
    split at h
    · obtain ⟨h1, h2⟩ := ih _ _ h
      exact ⟨h1, fun _ => h2 (Or.inr (GoMap.set_ne_nil _ _ _))⟩
    · split at h
      · simp at h
      · split at h
        · simp at h
        · obtain ⟨h1, h2⟩ := ih _ _ h
          exact ⟨h1, fun _ => h2 (Or.inr (GoMap.set_ne_nil _ _ _))⟩

theorem arrayLoop_ok {P σ : Type} (reg : Registry P σ) (xo : XMLOptions P)
    (hne : sliceElems xo.Fields ≠ []) (n : Nat) (i : Int) (xa xa1 : xmlArray)
    (w w1 : World σ) (h : arrayLoop reg xo n i xa w = (.ok xa1, w1)) :
    ∃ recs : List xmlMap, xa1.Array = xa.Array ++ recs ∧ xa1.XMLName = xa.XMLName ∧
      recs.length = n ∧ ∀ v ∈ recs, v.XMLName = xo.RecordElement ∧ v.Map ≠ [] := by
  induction n generalizing i xa w with
  | zero =>
    simp only [arrayLoop, Prod.mk.injEq, Except.ok.injEq] at h
    rw [← h.1]
    exact ⟨[], by simp, rfl, rfl, by simp⟩
  | succ n ih =>
    simp only [arrayLoop] at h
    split at h
    · simp at h
    · rename_i v w2 hrec
      obtain ⟨recs, h1, h2, h3, h4⟩ := ih _ _ _ h
      obtain ⟨h5, h6⟩ := recordLoop_ok reg i _ _ _ _ _ hrec
      refine ⟨v :: recs, ?_, h2, ?_, ?_⟩
      · rw [h1]; simp
      · simp [h3]
      · intro v2 hv2
        rcases List.mem_cons.mp hv2 with h7 | h7
        · rw [h7]
          exact ⟨h5, h6 (Or.inl hne)⟩
        · exact h4 v2 h7

theorem finish_ok {r : EncResult} {doc : Document}
    (h : finish r = .returned (some doc) none) :
    ∃ e, r = .ok e ∧ doc = { indent := e.indent, tokens := e.out } := by
  cases r with
  | ok e =>
    simp only [finish, Outcome.returned.injEq, Option.some.injEq, and_true] at h
    exact ⟨e, rfl, h.symm⟩
  | error err => simp [finish] at h
  | panic msg => simp [finish] at h
  | outOfFuel => simp [finish] at h

/-- C5: for a valid array-shape request with `RowCount = R > 0` whose run of the
assembler completes (every generator resolved and succeeded), the array handed
to the encoder is the `R` zero-valued entries of `make`, which write nothing,
followed by `R` records that have entries and the record name: exactly `R`
entries write markup.  `XML` returns a document exactly when `MarshalXML`
completes on each of these `R` records in turn, and the document is then the
root element around exactly `R` record elements, the `i`-th holding what was
written for the `i`-th record. -/
theorem XML_array_record_count {P σ : Type} (reg : Registry P σ)
    (iter : Encoder → GoMap → GoMap) (fuel : Nat) (xo : XMLOptions P) (w w1 : World σ)
    (fs : List (Field P)) (xa : xmlArray)
    (hT : xo.Type_ = "array") (hF : xo.Fields = some fs) (hne : fs ≠ [])
    (hR : 0 < xo.RowCount)
    (hasm : assembleArray reg (applyDefaults xo) w = (.ok xa, w1)) :
    ∃ recs : List xmlMap,
      xa.Array = List.replicate xo.RowCount.toNat { XMLName := "", Map := [] } ++ recs ∧
      recs.length = xo.RowCount.toNat ∧
      (∀ v ∈ recs, v.XMLName = (applyDefaults xo).RecordElement ∧ v.Map ≠ []) ∧
      xa.Array.countP (fun m => decide (m.Map.length ≠ 0)) = xo.RowCount.toNat ∧
      (XML reg iter fuel xo w).outcome =
        finish (Encoder.EncodeArray iter fuel { indent := xo.Indent, out := [] } xa) ∧
      ∀ doc, (XML reg iter fuel xo w).outcome = .returned (some doc) none ↔
        ∃ bodies : List (List Token), bodies.length = xo.RowCount.toNat ∧
          Chain (MarshalXML iter fuel)
            { indent := xo.Indent,
              out := [.StartElement
                (if xo.RootElement = "" then "xmlArray" else xo.RootElement)] }
            recs (bodies.map (element (applyDefaults xo).RecordElement)) ∧
          doc =
            { indent := xo.Indent,
              tokens := element (if xo.RootElement = "" then "xmlArray" else xo.RootElement)
                (bodies.flatMap (element (applyDefaults xo).RecordElement)) } := by
  have hfs : sliceElems (applyDefaults xo).Fields = fs := by
    rw [applyDefaults_Fields, hF]; rfl
  have hxa := hasm
  unfold assembleArray at hxa
  rw [applyDefaults_RowCount, applyDefaults_RootElement] at hxa
  obtain ⟨recs, hrecs, hname, hlen, hall⟩ :=
    arrayLoop_ok reg (applyDefaults xo) (by rw [hfs]; exact hne) _ _ _ _ _ _ hxa
  simp only at hrecs hname
  have hout : (XML reg iter fuel xo w).outcome =
      finish (Encoder.EncodeArray iter fuel { indent := xo.Indent, out := [] } xa) := by
    rw [XML_array_eq reg iter fuel xo w fs hT hF hne hR, hasm]
  have hcount : xa.Array.countP (fun m => decide (m.Map.length ≠ 0)) = xo.RowCount.toNat := by
    rw [hrecs, List.countP_append]
    have h1 : List.countP (fun m : xmlMap => decide (m.Map.length ≠ 0))
        (List.replicate xo.RowCount.toNat { XMLName := "", Map := [] }) = 0 := by
      rw [List.countP_eq_zero]
      intro m hm
      rw [List.eq_of_mem_replicate hm]
      simp
    have h2 : List.countP (fun m : xmlMap => decide (m.Map.length ≠ 0)) recs = recs.length := by
      rw [List.countP_eq_length]
      intro m hm
      have := (hall m hm).2
      simp only [ne_eq, decide_not, Bool.not_eq_eq_eq_not, Bool.not_true, decide_eq_false_iff_not]
      exact fun h0 => this (List.length_eq_zero.mp h0)
    rw [h1, h2, hlen, Nat.zero_add]
  have hrecne : recs ≠ [] := by
    intro h0
    rw [h0] at hlen
    simp only [List.length_nil] at hlen
    omega
  refine ⟨recs, hrecs, hlen, hall, hcount, hout, ?_⟩
  intro doc
  rw [hout]
  unfold Encoder.EncodeArray
  rw [hname, hrecs]
  simp only
  constructor
  · intro hdoc
    obtain ⟨e, he, hd⟩ := finish_ok hdoc
    cases fuel with
    | zero =>
      obtain ⟨n, hn⟩ : ∃ n, xo.RowCount.toNat = n + 1 := ⟨xo.RowCount.toNat - 1, by omega⟩
      rw [hn] at he
      simp [List.replicate_succ, encodeArrayLoop, MarshalXML] at he
    | succ fuel =>
      rw [encodeArrayLoop_replicate] at he
      cases h3 : encodeArrayLoop iter (fuel + 1) recs
          (Encoder.write { indent := xo.Indent, out := [] }
            [Token.StartElement (if xo.RootElement = "" then "xmlArray"
              else xo.RootElement)]) with
      | ok e0 =>
        rw [h3] at he
        simp only [EncResult.ok.injEq] at he
        obtain ⟨chunks, hch, he0⟩ := encodeArrayLoop_chain iter (fuel + 1) recs _ _ h3
        obtain ⟨bodies, hb⟩ := Chain.record_elements iter (fuel + 1) _ recs hall _ _ hch
        subst hb
        refine ⟨bodies, ?_, hch, ?_⟩
        · have := hch.length_eq
          simpa [hlen] using this
        · rw [hd, ← he, he0, write_write, write_write]
          simp [Encoder.write, element, List.flatMap]
      | error err => rw [h3] at he; simp at he
      | panic msg => rw [h3] at he; simp at he
      | outOfFuel => rw [h3] at he; simp at he
  · rintro ⟨bodies, -, hch, hd⟩
    cases fuel with
    | zero =>
      cases recs with
      | nil => exact absurd rfl hrecne
      | cons v rest =>
        cases bodies with
        | nil => simp [Chain] at hch
        | cons b bs => simp [Chain, MarshalXML] at hch
    | succ fuel =>
      rw [encodeArrayLoop_replicate]
      have := encodeArrayLoop_of_chain iter (fuel + 1) recs _ _ hch
      simp only [Encoder.write, List.nil_append] at this ⊢
      rw [this, hd]
      simp [finish, element, List.flatMap]

/-- Witness of C5: two rows of an `autoincrement` field and a `word` field. -/
theorem XML_array_record_count_witness :
    (0 < sampleArrayOptions.RowCount ∧
        assembleArray sampleRegistry (applyDefaults sampleArrayOptions) sampleWorld =
          (.ok sampleArrayResult, sampleArrayWorld) ∧
        (XML sampleRegistry (fun _ => id) 1 sampleArrayOptions sampleWorld).outcome =
          .returned (some ⟨false,
            [.StartElement "root",
              .StartElement "record", .StartElement "id", .CharData "1", .EndElement "id",
              .StartElement "a", .CharData "hello", .EndElement "a", .EndElement "record",
              .StartElement "record", .StartElement "id", .CharData "2", .EndElement "id",
              .StartElement "a", .CharData "hello", .EndElement "a", .EndElement "record",
              .EndElement "root"]⟩) none) ∧
      ∃ recs : List xmlMap,
        sampleArrayResult.Array =
          List.replicate sampleArrayOptions.RowCount.toNat { XMLName := "", Map := [] } ++
            recs ∧
        recs.length = sampleArrayOptions.RowCount.toNat ∧
        (∀ v ∈ recs,
          v.XMLName = (applyDefaults sampleArrayOptions).RecordElement ∧ v.Map ≠ []) ∧
        sampleArrayResult.Array.countP (fun m => decide (m.Map.length ≠ 0)) =
          sampleArrayOptions.RowCount.toNat ∧
        (XML sampleRegistry (fun _ => id) 1 sampleArrayOptions sampleWorld).outcome =
          finish (Encoder.EncodeArray (fun _ => id) 1
            { indent := sampleArrayOptions.Indent, out := [] } sampleArrayResult) ∧
        ∀ doc, (XML sampleRegistry (fun _ => id) 1 sampleArrayOptions sampleWorld).outcome =
            .returned (some doc) none ↔
          ∃ bodies : List (List Token),
            bodies.length = sampleArrayOptions.RowCount.toNat ∧
            Chain (MarshalXML (fun _ => id) 1)
              { indent := sampleArrayOptions.Indent,
                out := [.StartElement
                  (if sampleArrayOptions.RootElement = "" then "xmlArray"
                    else sampleArrayOptions.RootElement)] }
              recs (bodies.map (element (applyDefaults sampleArrayOptions).RecordElement)) ∧
            doc =
              { indent := sampleArrayOptions.Indent,
                tokens := element
                  (if sampleArrayOptions.RootElement = "" then "xmlArray"
                    else sampleArrayOptions.RootElement)
                  (bodies.flatMap
                    (element (applyDefaults sampleArrayOptions).RecordElement)) } :=
  ⟨⟨by decide, rfl, by decide⟩,
    XML_array_record_count sampleRegistry (fun _ => id) 1 sampleArrayOptions sampleWorld
      sampleArrayWorld
      [{ Name := "id", Function := "autoincrement", Params := () },
        { Name := "a", Function := "word", Params := () }]
      sampleArrayResult rfl rfl (List.cons_ne_nil _ _) (by decide) rfl⟩

/-! ## The auto-increment field -/

theorem GoMap.get_set_self (m : GoMap) (k : String) (v : Value) :
    GoMap.get (GoMap.set m k v) k = some v := by
  induction m with
  | nil => simp [GoMap.set, GoMap.get]
  | cons kv rest ih =>
    obtain ⟨k1, v1⟩ := kv
    by_cases h : k1 = k
    · simp [GoMap.set, GoMap.get, h]
    · simp [GoMap.set, GoMap.get, h, ih]

theorem GoMap.get_set_of_ne (m : GoMap) (k k2 : String) (v : Value) (hne : k ≠ k2) :
    GoMap.get (GoMap.set m k v) k2 = GoMap.get m k2 := by
  induction m with
  | nil => simp [GoMap.set, GoMap.get, hne]
  | cons kv rest ih =>
    obtain ⟨k1, v1⟩ := kv
    by_cases h : k1 = k
    · have h2 : ¬ k1 = k2 := by rw [h]; exact hne
      simp [GoMap.set, GoMap.get, h, hne, h2]
    · by_cases h2 : k1 = k2
      · subst h2
        simp [GoMap.set, GoMap.get, h]
      · simp [GoMap.set, GoMap.get, h, h2, ih]

theorem recordLoop_get_of_not_mem {P σ : Type} (reg : Registry P σ) (i : Int) (k : String)
    (fs : List (Field P)) (hfs : ∀ g ∈ fs, g.Name ≠ k) (v v1 : xmlMap) (w w1 : World σ)
    (h : recordLoop reg i fs v w = (.ok v1, w1)) :
    GoMap.get v1.Map k = GoMap.get v.Map k := by
  induction fs generalizing v w with
  | nil =>
    simp only [recordLoop, Prod.mk.injEq, Except.ok.injEq] at h
    rw [← h.1]
  | cons f rest ih =>
    have hf := hfs f (List.mem_cons_self _ _)
    have hrest : ∀ g ∈ rest, g.Name ≠ k := fun g hg => hfs g (List.mem_cons_of_mem _ hg)
    simp only [recordLoop] at h
    split at h
    · rw [ih hrest _ _ h]
      exact GoMap.get_set_of_ne _ _ _ _ hf
    · split at h
      · simp at h
      · split at h
        · simp at h
        · rw [ih hrest _ _ h]
          exact GoMap.get_set_of_ne _ _ _ _ hf

theorem recordLoop_autoincrement {P σ : Type} (reg : Registry P σ) (i : Int)
    (pre post : List (Field P)) (f : Field P) (hf : f.Function = "autoincrement")
    (hpost : ∀ g ∈ post, g.Name ≠ f.Name) (v v1 : xmlMap) (w w1 : World σ)
    (h : recordLoop reg i (pre ++ f :: post) v w = (.ok v1, w1)) :
    GoMap.get v1.Map f.Name = some (.int .int i) := by
  induction pre generalizing v w with
  | nil =>
    simp only [List.nil_append, recordLoop, hf, if_true] at h
    rw [recordLoop_get_of_not_mem reg i f.Name post hpost _ _ _ _ h]
    exact GoMap.get_set_self _ _ _
  | cons g rest ih =>
    simp only [List.cons_append, recordLoop] at h
    split at h
    · exact ih _ _ h
    · split at h
      · simp at h
      · split at h
        · simp at h
        · exact ih _ _ h

theorem recordLoop_log {P σ : Type} (reg : Registry P σ) (i : Int) (fs : List (Field P))
    (v : xmlMap) (w : World σ)
    (hw : RegistryEvent.lookup "autoincrement" ∉ w.log) :
    RegistryEvent.lookup "autoincrement" ∉ (recordLoop reg i fs v w).2.log := by
  induction fs generalizing v w with
  | nil => simpa [recordLoop] using hw
  | cons f rest ih =>
    simp only [recordLoop]
    split
    · exact ih _ _ hw
    · rename_i hauto
      have hw1 : RegistryEvent.lookup "autoincrement" ∉
          (GetFuncLookup reg f.Function w).2.log := by
        simp only [GetFuncLookup, List.mem_append, List.mem_singleton,
          RegistryEvent.lookup.injEq, not_or]
        exact ⟨hw, fun h0 => hauto h0.symm⟩
      split
      · rename_i w2 heq
        have : w2 = (GetFuncLookup reg f.Function w).2 := by rw [heq]
        rw [this]; exact hw1
      · rename_i info w2 heq
        have hw2 : w2 = (GetFuncLookup reg f.Function w).2 := by rw [heq]
        have hw3 : RegistryEvent.lookup "autoincrement" ∉
            (callGenerator info f.Function f.Params w2).2.log := by
          simp only [callGenerator, List.mem_append, List.mem_singleton, not_or]
          rw [hw2]
          exact ⟨hw1, by simp⟩
        split
        · rename_i w3 heq2
          have : w3 = (callGenerator info f.Function f.Params w2).2 := by rw [heq2]
          rw [this]; exact hw3
        · rename_i w3 heq2
          have : w3 = (callGenerator info f.Function f.Params w2).2 := by rw [heq2]
          apply ih
          rw [this]; exact hw3

theorem arrayLoop_log {P σ : Type} (reg : Registry P σ) (xo : XMLOptions P) (n : Nat)
    (i : Int) (xa : xmlArray) (w : World σ)
    (hw : RegistryEvent.lookup "autoincrement" ∉ w.log) :
    RegistryEvent.lookup "autoincrement" ∉ (arrayLoop reg xo n i xa w).2.log := by
  induction n generalizing i xa w with
  | zero => simpa [arrayLoop] using hw
  | succ n ih =>
    have h1 := recordLoop_log reg i (sliceElems xo.Fields)
      { XMLName := xo.RecordElement, Map := [] } w hw
    simp only [arrayLoop]
    split
    · rename_i err w1 heq
      rw [heq] at h1
      exact h1
    · rename_i v w1 heq
      rw [heq] at h1
      exact ih _ _ _ h1

theorem arrayLoop_autoincrement {P σ : Type} (reg : Registry P σ) (xo : XMLOptions P)
    (pre post : List (Field P)) (f : Field P)
    (hF : sliceElems xo.Fields = pre ++ f :: post) (hf : f.Function = "autoincrement")
    (hpost : ∀ g ∈ post, g.Name ≠ f.Name)
    (n : Nat) (i : Int) (xa xa1 : xmlArray) (w w1 : World σ)
    (h : arrayLoop reg xo n i xa w = (.ok xa1, w1)) (j : Nat) (hj : j < n) :
    ∃ v, xa1.Array[xa.Array.length + j]? = some v ∧
      GoMap.get v.Map f.Name = some (.int .int (i + j)) := by
  induction n generalizing i xa w j with
  | zero => omega
  | succ n ih =>
    simp only [arrayLoop] at h
    split at h
    · simp at h
    · rename_i v w2 hrec
      obtain ⟨recs, h1, -, -, -⟩ := arrayLoop_ok reg xo
        (by rw [hF]; simp) _ _ _ _ _ _ h
      simp only at h1
      cases j with
      | zero =>
        refine ⟨v, ?_, ?_⟩
        · rw [h1, List.append_assoc, Nat.add_zero,
            List.getElem?_append_right (Nat.le_refl _)]
          simp
        · rw [hF] at hrec
          have := recordLoop_autoincrement reg i pre post f hf hpost _ _ _ _ hrec
          simpa using this
      | succ j =>
        obtain ⟨v2, h2, h3⟩ := ih _ _ _ h j (by omega)
        refine ⟨v2, ?_, ?_⟩
        · rw [← h2]
          simp only [List.length_append, List.length_singleton]
          congr 1
          omega
        · rw [h3]
          congr 2
          push_cast
          omega

/-- C6 as stated fails: an `autoincrement` field `id` followed by a `word` field
of the same name.  The one record built holds the word under `id`, not the
integer 1, and the document shows it. -/
theorem XML_autoincrement_overwritten :
    (∃ xa w1 v,
        assembleArray sampleRegistry
            (applyDefaults
              (sampleOptions "array" "root" "" 1 [("id", "autoincrement"), ("id", "word")]))
            sampleWorld = (.ok xa, w1) ∧
          xa.Array[1]? = some v ∧
          GoMap.get v.Map "id" = some (.string "hello") ∧
          GoMap.get v.Map "id" ≠ some (.int .int 1)) ∧
      (XML sampleRegistry (fun _ => id) 1
          (sampleOptions "array" "root" "" 1 [("id", "autoincrement"), ("id", "word")])
          sampleWorld).outcome =
        .returned (some ⟨false,
          [.StartElement "root", .StartElement "record", .StartElement "id",
            .CharData "hello", .EndElement "id", .EndElement "record",
            .EndElement "root"]⟩) none := by
  refine ⟨⟨{ XMLName := "root",
              Array := [{ XMLName := "", Map := [] },
                { XMLName := "record", Map := [("id", .string "hello")] }] },
            { rand := (), log := [.lookup "word", .call "word"] },
            { XMLName := "record", Map := [("id", .string "hello")] },
            rfl, rfl, rfl, ?_⟩, by decide⟩
  intro h
  simp [GoMap.get] at h

/-- C6, amended: in the array the assembler builds, the `N`-th record the row
loop appends (entry `R + N - 1`, after the `R` empty entries of `make`) holds the
integer `N` under the name of an `autoincrement` field, provided no later field
of the schema has the same name; and the run logs no lookup of
`autoincrement` in the registry. -/
theorem assembleArray_autoincrement {P σ : Type} (reg : Registry P σ) (xo : XMLOptions P)
    (w w1 : World σ) (xa : xmlArray) (pre post : List (Field P)) (f : Field P)
    (hF : xo.Fields = some (pre ++ f :: post)) (hf : f.Function = "autoincrement")
    (hpost : ∀ g ∈ post, g.Name ≠ f.Name)
    (hxa : assembleArray reg (applyDefaults xo) w = (.ok xa, w1))
    (N : Nat) (h1 : 1 ≤ N) (hN : (N : Int) ≤ xo.RowCount) :
    (∃ v, xa.Array[xo.RowCount.toNat + (N - 1)]? = some v ∧
        GoMap.get v.Map f.Name = some (.int .int N)) ∧
      (RegistryEvent.lookup "autoincrement" ∉ w.log →
        RegistryEvent.lookup "autoincrement" ∉ w1.log) := by
  have hfs : sliceElems (applyDefaults xo).Fields = pre ++ f :: post := by
    rw [applyDefaults_Fields, hF]; rfl
  unfold assembleArray at hxa
  rw [applyDefaults_RowCount] at hxa
  constructor
  · obtain ⟨v, hv1, hv2⟩ := arrayLoop_autoincrement reg (applyDefaults xo) pre post f hfs hf
      hpost _ _ _ _ _ _ hxa (N - 1) (by omega)
    refine ⟨v, ?_, ?_⟩
    · simpa using hv1
    · rw [hv2]
      congr 2
      omega
  · intro hw
    have := arrayLoop_log reg (applyDefaults xo) xo.RowCount.toNat 1
      { XMLName := (applyDefaults xo).RootElement,
        Array := List.replicate xo.RowCount.toNat { XMLName := "", Map := [] } } w hw
    rw [hxa] at this
    exact this

/-- Witness of C6, amended: the second record of `sampleArrayOptions`. -/
theorem assembleArray_autoincrement_witness :
    (1 ≤ 2 ∧ ((2 : Nat) : Int) ≤ sampleArrayOptions.RowCount) ∧
      (∃ v, sampleArrayResult.Array[sampleArrayOptions.RowCount.toNat + (2 - 1)]? = some v ∧
          GoMap.get v.Map "id" = some (.int .int ((2 : Nat) : Int))) ∧
      (RegistryEvent.lookup "autoincrement" ∉ sampleWorld.log →
        RegistryEvent.lookup "autoincrement" ∉ sampleArrayWorld.log) :=
  ⟨⟨by decide, by decide⟩,
    assembleArray_autoincrement sampleRegistry sampleArrayOptions sampleWorld
      sampleArrayWorld sampleArrayResult
      [] [{ Name := "a", Function := "word", Params := () }]
      { Name := "id", Function := "autoincrement", Params := () }
      rfl rfl
      (by
        intro g hg
        rw [List.mem_singleton] at hg
        subst hg
        decide)
      rfl 2 (by decide) (by decide)⟩

/-! ## The children of a single-record document -/

theorem GoMap.set_keys_of_not_mem (m : GoMap) (k : String) (v : Value)
    (h : k ∉ m.map Prod.fst) :
    (GoMap.set m k v).map Prod.fst = m.map Prod.fst ++ [k] := by
  induction m with
  | nil => simp [GoMap.set]
  | cons kv rest ih =>
    obtain ⟨k1, v1⟩ := kv
    simp only [List.map_cons, List.mem_cons, not_or] at h
    have h1 : ¬ k1 = k := fun h0 => h.1 h0.symm
    simp [GoMap.set, h1, ih h.2]

theorem singleLoop_keys {P σ : Type} (reg : Registry P σ) (fs : List (Field P))
    (v v1 : xmlMap) (w w1 : World σ)
    (hnd : (v.Map.map Prod.fst ++ fs.map Field.Name).Nodup)
    (h : singleLoop reg fs v w = (.ok v1, w1)) :
    v1.XMLName = v.XMLName ∧ v1.Map.map Prod.fst = v.Map.map Prod.fst ++ fs.map Field.Name := by
  induction fs generalizing v w with
  | nil =>
    simp only [singleLoop, Prod.mk.injEq, Except.ok.injEq] at h
    rw [← h.1]
    simp
  | cons f rest ih =>
    simp only [singleLoop] at h
    split at h
    · simp at h
    · split at h
      · simp at h
      · rename_i value w3 hcall
        have hnot : f.Name ∉ v.Map.map Prod.fst := by
          intro hmem
          rw [List.map_cons] at hnd
          exact (List.nodup_append.mp hnd).2.2 hmem (List.mem_cons_self _ _)
        have hkeys := GoMap.set_keys_of_not_mem v.Map f.Name value hnot
        have hnd2 : (((GoMap.set v.Map f.Name value).map Prod.fst) ++
            rest.map Field.Name).Nodup := by
          rw [hkeys, List.append_assoc]
          simpa using hnd
        obtain ⟨h1, h2⟩ := ih _ _ hnd2 h
        refine ⟨h1, ?_⟩
        rw [h2, hkeys]
        simp

/-- C9 as stated fails, twice over.  Two fields of the same name give one child,
not two; and with two fields `a`, `b` and a map iteration that visits `b`
first, the children are not in schema order. -/
theorem XML_single_children_not_schema_order :
    ((XML sampleRegistry (fun _ => id) 1
          (sampleOptions "single" "root" "" 0 [("a", "word"), ("a", "bool")])
          sampleWorld).outcome =
        .returned (some ⟨false,
          [.StartElement "root", .StartElement "a", .CharData "true", .EndElement "a",
            .EndElement "root"]⟩) none ∧
      [Token.StartElement "root", .StartElement "a", .CharData "true", .EndElement "a",
          .EndElement "root"] ≠
        schemaOrderDocument "root" [("a", .string "hello"), ("a", .bool true)]) ∧
    ((XML sampleRegistry (fun _ => List.reverse) 1
          (sampleOptions "single" "root" "" 0 [("a", "word"), ("b", "bool")])
          sampleWorld).outcome =
        .returned (some ⟨false,
          [.StartElement "root", .StartElement "b", .CharData "true", .EndElement "b",
            .StartElement "a", .CharData "hello", .EndElement "a",
            .EndElement "root"]⟩) none ∧
      [Token.StartElement "root", .StartElement "b", .CharData "true", .EndElement "b",
          .StartElement "a", .CharData "hello", .EndElement "a", .EndElement "root"] ≠
        schemaOrderDocument "root" [("a", .string "hello"), ("b", .bool true)]) := by
  refine ⟨⟨by decide, by decide⟩, by decide, by decide⟩

/-- C9, amended: for a valid single-shape request whose `N` fields have pairwise
distinct names, every document `XML` returns is one element named `RootElement`
(which is then non-empty) whose content is, with no wrapper in between, the
encodings of the `N` entries of the assembled record, one per field, in the
order the map iteration visits them, a permutation of the schema order: the
chunks are what the loop body writes for the entries, one after the other. -/
theorem XML_single_children {P σ : Type} (reg : Registry P σ)
    (iter : Encoder → GoMap → GoMap) (fuel : Nat) (xo : XMLOptions P) (w : World σ)
    (fs : List (Field P)) (doc : Document)
    (hT : xo.Type_ = "single") (hF : xo.Fields = some fs) (hne : fs ≠ [])
    (hnames : (fs.map Field.Name).Nodup) (hiter : ∀ e m, (iter e m).Perm m)
    (hdoc : (XML reg iter fuel xo w).outcome = .returned (some doc) none) :
    ∃ (m : GoMap) (w1 : World σ) (chunks : List (List Token)),
      assembleSingle reg (applyDefaults xo) w =
          (.ok { XMLName := xo.RootElement, Map := m }, w1) ∧
        m.map Prod.fst = fs.map Field.Name ∧
        (iter { indent := xo.Indent, out := [.StartElement xo.RootElement] } m).Perm m ∧
        chunks.length = fs.length ∧
        Chain (entryStep (MarshalXML iter (fuel - 1)))
          { indent := xo.Indent, out := [.StartElement xo.RootElement] }
          (iter { indent := xo.Indent, out := [.StartElement xo.RootElement] } m) chunks ∧
        xo.RootElement ≠ "" ∧
        doc.tokens = element xo.RootElement chunks.flatten := by
  rw [XML_single_eq reg iter fuel xo w fs hT hF hne] at hdoc
  rcases hasm : assembleSingle reg (applyDefaults xo) w with ⟨r, w1⟩
  rw [hasm] at hdoc
  cases r with
  | error err => simp at hdoc
  | ok v =>
    simp only at hdoc
    have hasm2 := hasm
    unfold assembleSingle at hasm2
    rw [applyDefaults_Fields, hF, applyDefaults_RootElement] at hasm2
    simp only [sliceElems] at hasm2
    obtain ⟨hname, hkeys⟩ := singleLoop_keys reg fs _ _ _ _ (by simpa using hnames) hasm2
    simp only [List.map_nil, List.nil_append] at hname hkeys
    obtain ⟨e, he, hd⟩ := finish_ok hdoc
    have hv : v = { XMLName := xo.RootElement, Map := v.Map } := by
      cases v
      simp only at hname
      rw [hname]
    have hlen : v.Map.length = fs.length := by
      have := congrArg List.length hkeys
      simpa using this
    have hfs : fs.length ≠ 0 := fun h0 => hne (List.length_eq_zero.mp h0)
    have hm : v.Map ≠ [] := by
      intro h0
      rw [h0] at hlen
      exact hfs hlen.symm
    cases fuel with
    | zero => simp [MarshalXML] at he
    | succ fuel =>
      by_cases hn : xo.RootElement = ""
      · rw [MarshalXML_noname iter fuel v _ hm (by rw [hname]; exact hn)] at he
        simp at he
      · rw [MarshalXML_succ iter fuel v _ hm (by rw [hname]; exact hn), hname] at he
        simp only [Encoder.write, List.nil_append] at he
        cases h3 : xmlMapLoopRange (MarshalXML iter fuel)
            (iter { indent := xo.Indent, out := [Token.StartElement xo.RootElement] } v.Map)
            { indent := xo.Indent, out := [Token.StartElement xo.RootElement] } with
        | ok e0 =>
          rw [h3] at he
          simp only [EncResult.ok.injEq] at he
          obtain ⟨chunks, hch, he0⟩ := xmlMapLoopRange_chain (MarshalXML iter fuel)
            (MarshalXML_appends iter fuel) _ _ _ h3
          refine ⟨v.Map, w1, chunks, ?_, hkeys, hiter _ _, ?_, ?_, hn, ?_⟩
          · rw [← hv]
          · rw [hch.length_eq, (hiter _ v.Map).length_eq, hlen]
          · simpa using hch
          · rw [hd, ← he, he0]
            simp [Encoder.write, element]
        | error err => rw [h3] at he; simp at he
        | panic msg => rw [h3] at he; simp at he
        | outOfFuel => rw [h3] at he; simp at he

/-- Witness of C9, amended: the fields `a` and `b`, visited in insertion order. -/
theorem XML_single_children_witness :
    (XML sampleRegistry (fun _ => id) 1 sampleSingleOptions sampleWorld).outcome =
        .returned (some ⟨false,
          [.StartElement "root", .StartElement "a", .CharData "hello", .EndElement "a",
            .StartElement "b", .CharData "true", .EndElement "b",
            .EndElement "root"]⟩) none ∧
      ∃ (m : GoMap) (w1 : World Unit) (chunks : List (List Token)),
        assembleSingle sampleRegistry (applyDefaults sampleSingleOptions) sampleWorld =
            (.ok { XMLName := sampleSingleOptions.RootElement, Map := m }, w1) ∧
          m.map Prod.fst =
            [({ Name := "a", Function := "word", Params := () } : Field Unit),
              { Name := "b", Function := "bool", Params := () }].map Field.Name ∧
          (id m).Perm m ∧
          chunks.length =
            [({ Name := "a", Function := "word", Params := () } : Field Unit),
              { Name := "b", Function := "bool", Params := () }].length ∧
          Chain (entryStep (MarshalXML (fun _ => id) (1 - 1)))
            { indent := sampleSingleOptions.Indent,
              out := [.StartElement sampleSingleOptions.RootElement] } (id m) chunks ∧
          sampleSingleOptions.RootElement ≠ "" ∧
          ({ indent := false,
             tokens := [.StartElement "root", .StartElement "a", .CharData "hello",
               .EndElement "a", .StartElement "b", .CharData "true", .EndElement "b",
               .EndElement "root"] } : Document).tokens =
            element sampleSingleOptions.RootElement chunks.flatten :=
  ⟨by decide,
    XML_single_children sampleRegistry (fun _ => id) 1 sampleSingleOptions sampleWorld
      [{ Name := "a", Function := "word", Params := () },
        { Name := "b", Function := "bool", Params := () }]
      ⟨false,
        [.StartElement "root", .StartElement "a", .CharData "hello", .EndElement "a",
          .StartElement "b", .CharData "true", .EndElement "b", .EndElement "root"]⟩
      rfl rfl (List.cons_ne_nil _ _) (by decide) (fun _ m => List.Perm.refl m) (by decide)⟩

/-! ## Scalar entries -/

/-- A record entry with a non-empty key whose value has one of the kinds the
first `case` of `xmlMapLoop` lists becomes one leaf element named after the key,
holding the textual form of the value; in the text of a string the characters
outside the XML character range are replaced by U+FFFD. -/
theorem xmlMapLoopBody_scalar (encodeMap : xmlMap → Encoder → EncResult) (key : String)
    (value : Value) (text : String) (e : Encoder) (hkey : key ≠ "")
    (htext : value.text = some text)
    (h16 : value.Kind ≠ Kind.Int16 ∧ value.Kind ≠ Kind.Uint16) :
    xmlMapLoopBody encodeMap key value e =
      .ok (e.write [.StartElement key,
        .CharData (match value with
          | .string s => xmlText s
          | _ => text),
        .EndElement key]) := by
  cases value with
  | bool b =>
    simp only [Value.text, Option.some.injEq] at htext
    simp [xmlMapLoopBody, Value.Kind, Encoder.EncodeEntry, hkey, element, chardata,
      Value.text, htext]
  | string s =>
    simp [xmlMapLoopBody, Value.Kind, Encoder.EncodeEntry, hkey, element, chardata]
  | int t n =>
    simp only [Value.text, Option.some.injEq] at htext
    cases t <;> first
      | exact absurd rfl h16.1
      | simp_all [xmlMapLoopBody, Value.Kind, IntType.kind, Encoder.EncodeEntry, element,
        chardata, Value.text]
  | uint t n =>
    simp only [Value.text, Option.some.injEq] at htext
    cases t <;> first
      | exact absurd rfl h16.2
      | simp_all [xmlMapLoopBody, Value.Kind, UintType.kind, Encoder.EncodeEntry, element,
        chardata, Value.text]
  | float t txt =>
    simp only [Value.text, Option.some.injEq] at htext
    cases t <;>
      simp_all [xmlMapLoopBody, Value.Kind, FloatType.kind, Encoder.EncodeEntry, element,
        chardata, Value.text]
  | nil => simp [Value.text] at htext
  | strSlice l => simp [Value.text] at htext
  | slice t l => simp [Value.text] at htext
  | map m => simp [Value.text] at htext
  | mapOther t => simp [Value.text] at htext
  | other t enc => simp [Value.text] at htext

/-- C10, at the failing input: the entries `n` holding `int16(5)` and `u` holding
`uint16(7)`.  The kinds `Int16` and `Uint16` are missing from the scalar `case`,
so the `default` branch encodes the bare value: the elements are named `int16`
and `uint16`, after the type, not `n` and `u`, after the key. -/
theorem xmlMapLoop_int16_entry :
    xmlMapLoop (MarshalXML (fun _ => id) 0) (fun _ => id) { indent := false, out := [] }
        { XMLName := "record", Map := [("n", .int .int16 5)] } =
      .ok { indent := false,
            out := [.StartElement "int16", .CharData "5", .EndElement "int16"] } ∧
    xmlMapLoop (MarshalXML (fun _ => id) 0) (fun _ => id) { indent := false, out := [] }
        { XMLName := "record", Map := [("u", .uint .uint16 7)] } =
      .ok { indent := false,
            out := [.StartElement "uint16", .CharData "7", .EndElement "uint16"] } ∧
    (XML sampleRegistry (fun _ => id) 1 (sampleOptions "single" "root" "" 0 [("n", "int16")])
        sampleWorld).outcome =
      .returned (some ⟨false,
        [.StartElement "root", .StartElement "int16", .CharData "5", .EndElement "int16",
          .EndElement "root"]⟩) none := by
  refine ⟨by decide, by decide, by decide⟩

/-! ## Sequence entries -/

/-- C11 as stated fails in two ways.  Under the empty key the two `EncodeToken`
calls refuse the nameless tags, `xmlMapLoop` drops both errors, and the `value`
children of `["a", "b"]` are written with no container around them.  And the
text of a child is not always the entry: an entry holding a character outside
the XML character range, here U+0000, is written with U+FFFD in its place. -/
theorem xmlMapLoop_strSlice_not_as_claimed :
    xmlMapLoop (MarshalXML (fun _ => id) 0) (fun _ => id) { indent := false, out := [] }
        { XMLName := "record", Map := [("", .strSlice ["a", "b"])] } =
      .ok { indent := false,
            out := [.StartElement "value", .CharData "a", .EndElement "value",
              .StartElement "value", .CharData "b", .EndElement "value"] } ∧
    xmlMapLoop (MarshalXML (fun _ => id) 0) (fun _ => id) { indent := false, out := [] }
        { XMLName := "record",
          Map := [("tags", .strSlice [String.mk ['a', Char.ofNat 0, 'b']])] } =
      .ok { indent := false,
            out := [.StartElement "tags",
              .StartElement "value", .CharData (String.mk ['a', Char.ofNat 0xFFFD, 'b']),
              .EndElement "value",
              .EndElement "tags"] } ∧
    String.mk ['a', Char.ofNat 0xFFFD, 'b'] ≠ String.mk ['a', Char.ofNat 0, 'b'] := by
  refine ⟨by decide, by decide, by decide⟩

/-- C11, amended: for a record entry with a non-empty key whose value is a slice
of strings `s`, `xmlMapLoop` writes the start tag named after the key, then one
element named `value` per entry of `s`, in order, then the end tag: `len(s)`
children, none for the empty slice.  The text of a child is the entry with every
character outside the XML character range replaced by U+FFFD, so it is the entry
itself when all its characters are in the range. -/
theorem xmlMapLoopBody_strSlice (encodeMap : xmlMap → Encoder → EncResult) (key : String)
    (s : List String) (e : Encoder) (hkey : key ≠ "") :
    xmlMapLoopBody encodeMap key (.strSlice s) e =
        .ok (e.write (.StartElement key ::
          (s.map (fun x =>
            [Token.StartElement "value", .CharData (xmlText x), .EndElement "value"])).flatten
            ++ [.EndElement key])) ∧
      (s.map (fun x =>
        [Token.StartElement "value", .CharData (xmlText x), .EndElement "value"])).length =
          s.length ∧
      ∀ x ∈ s, (∀ c ∈ x.data, isInCharacterRange c = true) → xmlText x = x := by
  refine ⟨?_, by simp, ?_⟩
  · simp only [xmlMapLoopBody, Value.Kind, Value.indexStrings, sliceLoop_eq,
      Encoder.EncodeToken, hkey, if_false, write_write]
    simp [element, List.flatMap]
  · intro x _ hx
    have hmap : x.data.map
        (fun c => if isInCharacterRange c then c else Char.ofNat 0xFFFD) = x.data := by
      have : ∀ l : List Char, (∀ c ∈ l, isInCharacterRange c = true) →
          l.map (fun c => if isInCharacterRange c then c else Char.ofNat 0xFFFD) = l := by
        intro l
        induction l with
        | nil => intro _; rfl
        | cons c rest ih =>
          intro h
          rw [List.map_cons, ih (fun d hd => h d (List.mem_cons_of_mem _ hd)),
            if_pos (h c (List.mem_cons_self _ _))]
      exact this x.data hx
    show String.mk (x.data.map _) = x
    rw [hmap]

/-- Witness of C11, amended: the slice `["a", "b"]` under the key `tags`. -/
theorem xmlMapLoopBody_strSlice_witness :
    ("tags" : String) ≠ "" ∧
      xmlMapLoopBody (MarshalXML (fun _ => id) 0) "tags" (.strSlice ["a", "b"])
          { indent := false, out := [] } =
        .ok { indent := false,
              out := [.StartElement "tags",
                .StartElement "value", .CharData "a", .EndElement "value",
                .StartElement "value", .CharData "b", .EndElement "value",
                .EndElement "tags"] } ∧
      (xmlMapLoopBody (MarshalXML (fun _ => id) 0) "tags" (.strSlice ["a", "b"])
          { indent := false, out := [] } =
        .ok (Encoder.write { indent := false, out := [] }
          (.StartElement "tags" ::
            (["a", "b"].map (fun x =>
              [Token.StartElement "value", .CharData (xmlText x),
                .EndElement "value"])).flatten
              ++ [.EndElement "tags"]))) ∧
      (["a", "b"].map (fun x =>
        [Token.StartElement "value", .CharData (xmlText x), .EndElement "value"])).length =
          ["a", "b"].length ∧
      ∀ x ∈ ["a", "b"], (∀ c ∈ x.data, isInCharacterRange c = true) → xmlText x = x :=
  ⟨by decide, by decide,
    xmlMapLoopBody_strSlice (MarshalXML (fun _ => id) 0) "tags" ["a", "b"]
      { indent := false, out := [] } (by decide)⟩

/-- C12, at the failing input: the entry `rgb` holding `[]int{7, 8}`.  The text
of each `value` child is `v.Index(i).String()`, which for an element that is
not a string is the placeholder `<int Value>`, not the textual form `7` or `8`
that the same entry gets as a scalar field. -/
theorem xmlMapLoop_int_slice :
    xmlMapLoop (MarshalXML (fun _ => id) 0) (fun _ => id) { indent := false, out := [] }
        { XMLName := "record",
          Map := [("rgb", .slice "int" [.int .int 7, .int .int 8])] } =
      .ok { indent := false,
            out := [.StartElement "rgb",
              .StartElement "value", .CharData "<int Value>", .EndElement "value",
              .StartElement "value", .CharData "<int Value>", .EndElement "value",
              .EndElement "rgb"] } ∧
    xmlMapLoop (MarshalXML (fun _ => id) 0) (fun _ => id) { indent := false, out := [] }
        { XMLName := "record", Map := [("r", .int .int 7)] } =
      .ok { indent := false,
            out := [.StartElement "r", .CharData "7", .EndElement "r"] } ∧
    (Value.slice "int" [.int .int 7, .int .int 8]).indexStrings ≠ ["7", "8"] := by
  refine ⟨by decide, by decide, by decide⟩

/-! ## Nested mappings -/

theorem depth_le_of_mem {l : List (String × Value)} {kv : String × Value} (h : kv ∈ l) :
    kv.2.depth ≤ depthEntries l := by
  induction l with
  | nil => cases h
  | cons a rest ih =>
    obtain ⟨k, v⟩ := a
    rcases List.mem_cons.mp h with h1 | h1
    · rw [h1]
      simp only [depthEntries]
      exact Nat.le_max_left _ _
    · simp only [depthEntries]
      exact Nat.le_trans (ih h1) (Nat.le_max_right _ _)

theorem xmlMapLoopBody_congr (enc1 enc2 : xmlMap → Encoder → EncResult) (key : String)
    (value : Value) (e : Encoder)
    (h : ∀ m, value = .map m → enc1 { XMLName := key, Map := m } e =
      enc2 { XMLName := key, Map := m } e) :
    xmlMapLoopBody enc1 key value e = xmlMapLoopBody enc2 key value e := by
  cases value with
  | map m =>
    simp only [xmlMapLoopBody, Value.Kind, Value.assertMap]
    exact h m rfl
  | int t n => cases t <;> rfl
  | uint t n => cases t <;> rfl
  | float t n => cases t <;> rfl
  | _ => rfl

theorem xmlMapLoopRange_congr (enc1 enc2 : xmlMap → Encoder → EncResult)
    (l : List (String × Value)) (e : Encoder)
    (h : ∀ kv ∈ l, ∀ m, kv.2 = .map m → ∀ e1, enc1 { XMLName := kv.1, Map := m } e1 =
      enc2 { XMLName := kv.1, Map := m } e1) :
    xmlMapLoopRange enc1 l e = xmlMapLoopRange enc2 l e := by
  induction l generalizing e with
  | nil => rfl
  | cons kv rest ih =>
    obtain ⟨key, value⟩ := kv
    simp only [xmlMapLoopRange]
    rw [xmlMapLoopBody_congr enc1 enc2 key value e
      (fun m hm => h (key, value) (List.mem_cons_self _ _) m hm e)]
    cases xmlMapLoopBody enc2 key value e with
    | ok e1 => exact ih e1 (fun kv hkv => h kv (List.mem_cons_of_mem _ hkv))
    | error err => rfl
    | panic msg => rfl
    | outOfFuel => rfl

theorem MarshalXML_fuel (iter : Encoder → GoMap → GoMap) (hiter : ∀ e l, ∀ kv ∈ iter e l, kv ∈ l)
    (fuel : Nat) (m : xmlMap) (e : Encoder) (h : depthEntries m.Map + 1 ≤ fuel) :
    MarshalXML iter fuel m e = MarshalXML iter (depthEntries m.Map + 1) m e := by
  induction fuel using Nat.strong_induction_on generalizing m e with
  | _ fuel ih =>
    cases fuel with
    | zero => omega
    | succ fuel =>
      simp only [MarshalXML, xmlMapLoop]
      have hrange : ∀ e1, xmlMapLoopRange (MarshalXML iter fuel) (iter e1 m.Map) e1 =
          xmlMapLoopRange (MarshalXML iter (depthEntries m.Map)) (iter e1 m.Map) e1 := by
        intro e1
        apply xmlMapLoopRange_congr
        intro kv hkv m2 hm2 e2
        have hd := depth_le_of_mem (hiter _ _ kv hkv)
        rw [hm2] at hd
        simp only [Value.depth] at hd
        have h1 : depthEntries m2 + 1 ≤ fuel := by omega
        rw [ih fuel (Nat.lt_succ_self _) { XMLName := kv.1, Map := m2 } e2 h1]
        exact (ih (depthEntries m.Map) (by omega) { XMLName := kv.1, Map := m2 } e2
          (by simpa using hd)).symm
      simp only [hrange]

theorem xmlMapLoopRange_ne_outOfFuel (encodeMap : xmlMap → Encoder → EncResult)
    (l : List (String × Value)) (e : Encoder)
    (h : ∀ kv ∈ l, ∀ m, kv.2 = .map m → ∀ e1,
      encodeMap { XMLName := kv.1, Map := m } e1 ≠ .outOfFuel) :
    xmlMapLoopRange encodeMap l e ≠ .outOfFuel := by
  induction l generalizing e with
  | nil => simp [xmlMapLoopRange]
  | cons kv rest ih =>
    obtain ⟨key, value⟩ := kv
    simp only [xmlMapLoopRange]
    have hb : xmlMapLoopBody encodeMap key value e ≠ .outOfFuel := by
      cases value with
      | map m =>
        simp only [xmlMapLoopBody, Value.Kind, Value.assertMap]
        exact h (key, .map m) (List.mem_cons_self _ _) m rfl e
      | int t n =>
        cases t <;> simp [xmlMapLoopBody, Value.Kind, IntType.kind, Encoder.EncodeEntry,
          Encoder.EncodeValue]
      | uint t n =>
        cases t <;> simp [xmlMapLoopBody, Value.Kind, UintType.kind, Encoder.EncodeEntry,
          Encoder.EncodeValue]
      | float t n =>
        cases t <;> simp [xmlMapLoopBody, Value.Kind, FloatType.kind, Encoder.EncodeEntry]
      | other t enc =>
        cases enc <;> simp [xmlMapLoopBody, Value.Kind, Encoder.EncodeValue]
      | strSlice s => simp [xmlMapLoopBody, Value.Kind, sliceLoop_eq]
      | slice t s => simp [xmlMapLoopBody, Value.Kind, sliceLoop_eq]
      | mapOther t => simp [xmlMapLoopBody, Value.Kind, Value.assertMap]
      | nil => simp [xmlMapLoopBody, Value.Kind, Encoder.EncodeValue]
      | bool b => simp [xmlMapLoopBody, Value.Kind, Encoder.EncodeEntry]
      | string s => simp [xmlMapLoopBody, Value.Kind, Encoder.EncodeEntry]
    cases h3 : xmlMapLoopBody encodeMap key value e with
    | ok e1 => exact ih e1 (fun kv hkv => h kv (List.mem_cons_of_mem _ hkv))
    | error err => simp
    | panic msg => simp
    | outOfFuel => exact absurd h3 hb

theorem MarshalXML_ne_outOfFuel (iter : Encoder → GoMap → GoMap) (hiter : ∀ e l, ∀ kv ∈ iter e l, kv ∈ l)
    (fuel : Nat) (m : xmlMap) (e : Encoder) (h : depthEntries m.Map + 1 ≤ fuel) :
    MarshalXML iter fuel m e ≠ .outOfFuel := by
  induction fuel generalizing m e with
  | zero => omega
  | succ fuel ih =>
    simp only [MarshalXML, xmlMapLoop]
    split
    · simp
    · split
      · simp
      · have hr := xmlMapLoopRange_ne_outOfFuel (MarshalXML iter fuel)
          (iter (e.write [Token.StartElement m.XMLName]) m.Map)
          (e.write [Token.StartElement m.XMLName]) (by
            intro kv hkv m2 hm2 e2
            have hd := depth_le_of_mem (hiter _ _ kv hkv)
            rw [hm2] at hd
            simp only [Value.depth] at hd
            exact ih _ _ (by simp only; omega))
        rename_i e1 heq
        have he1 : e1 = e.write [Token.StartElement m.XMLName] := by
          simp only [Encoder.EncodeToken] at heq
          split at heq
          · simp at heq
          · simp only [Prod.mk.injEq, and_true] at heq
            exact heq.symm
        rw [he1]
        cases h3 : xmlMapLoopRange (MarshalXML iter fuel)
            (iter (e.write [Token.StartElement m.XMLName]) m.Map)
            (e.write [Token.StartElement m.XMLName]) with
        | ok e2 =>
          simp only
          split <;> simp
        | error err => simp
        | panic msg => simp
        | outOfFuel => exact absurd h3 hr

/-- C13 as stated fails under the empty key: `MarshalXML` on the nested mapping
returns the error of the refused start tag, so the loop stops with
`xml: start tag with no name` and nothing is written, neither the tags nor the
encoding of the entry `city`. -/
theorem xmlMapLoop_nested_map_no_key :
    xmlMapLoop (MarshalXML (fun _ => id) 2) (fun _ => id) { indent := false, out := [] }
        { XMLName := "record", Map := [("", .map [("city", .string "Oslo")])] } =
      .error ⟨"xml: start tag with no name"⟩ ∧
    xmlMapLoop (MarshalXML (fun _ => id) 2) (fun _ => id) { indent := false, out := [] }
        { XMLName := "record", Map := [("address", .map [("city", .string "Oslo")])] } =
      .ok { indent := false,
            out := [.StartElement "address",
              .StartElement "city", .CharData "Oslo", .EndElement "city",
              .EndElement "address"] } := by
  refine ⟨by decide, by decide⟩

/-- C13, amended: for a record entry with a non-empty key whose value is a
non-empty nested mapping, the encoder writes the start tag named after the key,
runs the same loop over the entries of the nested mapping, in the order this
`range` statement visits them, and writes the end tag when that loop ends
normally.  With fuel at least the nesting depth of the value the recursion ends
(never out of fuel), and more fuel changes nothing. -/
theorem xmlMapLoopBody_nested_map (iter : Encoder → GoMap → GoMap)
    (hiter : ∀ e l, ∀ kv ∈ iter e l, kv ∈ l) (fuel : Nat) (key : String) (m : GoMap)
    (e : Encoder) (hkey : key ≠ "") (hm : m ≠ []) (hfuel : (Value.map m).depth ≤ fuel) :
    xmlMapLoopBody (MarshalXML iter fuel) key (.map m) e =
        (match xmlMapLoopRange (MarshalXML iter (fuel - 1))
            (iter (e.write [.StartElement key]) m) (e.write [.StartElement key]) with
          | .ok e2 => .ok (e2.write [.EndElement key])
          | r => r) ∧
      xmlMapLoopBody (MarshalXML iter fuel) key (.map m) e ≠ .outOfFuel ∧
      ∀ fuel2, fuel ≤ fuel2 →
        xmlMapLoopBody (MarshalXML iter fuel2) key (.map m) e =
          xmlMapLoopBody (MarshalXML iter fuel) key (.map m) e := by
  simp only [Value.depth] at hfuel
  have hbody : ∀ f, xmlMapLoopBody (MarshalXML iter f) key (.map m) e =
      MarshalXML iter f { XMLName := key, Map := m } e := by
    intro f
    simp only [xmlMapLoopBody, Value.Kind, Value.assertMap]
  refine ⟨?_, ?_, ?_⟩
  · rw [hbody]
    obtain ⟨f, hf⟩ : ∃ f, fuel = f + 1 := ⟨fuel - 1, by omega⟩
    subst hf
    have hlen : ¬ m.length = 0 := fun h0 => hm (List.length_eq_zero.mp h0)
    simp only [MarshalXML, hlen, if_false, Encoder.EncodeToken, hkey, xmlMapLoop,
      Nat.add_sub_cancel]
  · rw [hbody]
    exact MarshalXML_ne_outOfFuel iter hiter fuel _ e hfuel
  · intro fuel2 h2
    rw [hbody, hbody, MarshalXML_fuel iter hiter fuel2 _ e (by simp only; omega),
      MarshalXML_fuel iter hiter fuel _ e hfuel]

/-- Witness of C13, amended: the mapping `sampleNestedMap` under the key
`address`. -/
theorem xmlMapLoopBody_nested_map_witness :
    (("address" : String) ≠ "" ∧ (Value.map sampleNestedMap).depth ≤ 2) ∧
      xmlMapLoopBody (MarshalXML (fun _ => id) 2) "address" (.map sampleNestedMap)
          { indent := false, out := [] } =
        .ok { indent := false,
              out := [.StartElement "address",
                .StartElement "city", .CharData "Oslo", .EndElement "city",
                .StartElement "geo",
                .StartElement "lat", .CharData "59.9", .EndElement "lat",
                .EndElement "geo", .EndElement "address"] } ∧
      (xmlMapLoopBody (MarshalXML (fun _ => id) 2) "address" (.map sampleNestedMap)
          { indent := false, out := [] } =
        (match xmlMapLoopRange (MarshalXML (fun _ => id) (2 - 1)) (id sampleNestedMap)
            (Encoder.write { indent := false, out := [] } [.StartElement "address"]) with
          | .ok e2 => .ok (e2.write [.EndElement "address"])
          | r => r)) ∧
      xmlMapLoopBody (MarshalXML (fun _ => id) 2) "address" (.map sampleNestedMap)
          { indent := false, out := [] } ≠ .outOfFuel ∧
      ∀ fuel2, 2 ≤ fuel2 →
        xmlMapLoopBody (MarshalXML (fun _ => id) fuel2) "address" (.map sampleNestedMap)
            { indent := false, out := [] } =
          xmlMapLoopBody (MarshalXML (fun _ => id) 2) "address" (.map sampleNestedMap)
            { indent := false, out := [] } :=
  ⟨⟨by decide, by decide⟩, by decide,
    xmlMapLoopBody_nested_map (fun _ => id) (fun _ _ _ h => h) 2 "address" sampleNestedMap
      { indent := false, out := [] } (by decide) (List.cons_ne_nil _ _) (by decide)⟩

theorem xmlMapLoopBody_empty_map (iter : Encoder → GoMap → GoMap) (fuel : Nat) (key : String)
    (e : Encoder) :
    xmlMapLoopBody (MarshalXML iter (fuel + 1)) key (.map []) e = .ok e := by
  simp [xmlMapLoopBody, Value.Kind, Value.assertMap, MarshalXML]

theorem xmlMapLoopRange_skip_empty_map (iter : Encoder → GoMap → GoMap) (fuel : Nat)
    (l1 l2 : List (String × Value)) (key : String) (e : Encoder) :
    xmlMapLoopRange (MarshalXML iter (fuel + 1)) (l1 ++ (key, .map []) :: l2) e =
      xmlMapLoopRange (MarshalXML iter (fuel + 1)) (l1 ++ l2) e := by
  induction l1 generalizing e with
  | nil => simp only [List.nil_append, xmlMapLoopRange, xmlMapLoopBody_empty_map]
  | cons kv rest ih =>
    obtain ⟨k, v⟩ := kv
    simp only [List.cons_append, xmlMapLoopRange]
    cases xmlMapLoopBody (MarshalXML iter (fuel + 1)) k v e with
    | ok e1 => exact ih e1
    | error err => rfl
    | panic msg => rfl
    | outOfFuel => rfl

/-- C14 as stated fails: a record whose only entry is an empty mapping still
gets its own start and end tag, while the same record with that key removed has
no entry and encodes to nothing; the run of `XML` on one `emptymap` field shows
the first document. -/
theorem MarshalXML_only_empty_map :
    MarshalXML (fun _ => id) 2 { XMLName := "root", Map := [("m", .map [])] }
        { indent := false, out := [] } =
      .ok { indent := false, out := [.StartElement "root", .EndElement "root"] } ∧
    MarshalXML (fun _ => id) 2 { XMLName := "root", Map := [] } { indent := false, out := [] } =
      .ok { indent := false, out := [] } ∧
    MarshalXML (fun _ => id) 2 { XMLName := "root", Map := [("m", .map [])] }
        { indent := false, out := [] } ≠
      MarshalXML (fun _ => id) 2 { XMLName := "root", Map := [] } { indent := false, out := [] } ∧
    (XML sampleRegistry (fun _ => id) 2 (sampleOptions "single" "root" "" 0 [("m", "emptymap")])
        sampleWorld).outcome =
      .returned (some ⟨false, [.StartElement "root", .EndElement "root"]⟩) none := by
  refine ⟨by decide, by decide, by decide, by decide⟩

/-- C14, amended: an entry whose value is an empty mapping writes nothing,
whatever its key; the loop over a record, in the order it visits the entries,
writes exactly what it writes with that entry left out, so the other entries
are still encoded; the whole record element is the same with and without that
entry as long as another entry remains; and an `xmlMap` with no entries encodes
to nothing. -/
theorem xmlMapLoop_empty_map (iter : Encoder → GoMap → GoMap) (fuel : Nat) :
    (∀ key e, xmlMapLoopBody (MarshalXML iter (fuel + 1)) key (.map []) e = .ok e) ∧
      (∀ l1 l2 key e,
        xmlMapLoopRange (MarshalXML iter (fuel + 1)) (l1 ++ (key, .map []) :: l2) e =
          xmlMapLoopRange (MarshalXML iter (fuel + 1)) (l1 ++ l2) e) ∧
      (∀ name (l1 l2 : GoMap) key e,
        xmlMapLoop (MarshalXML iter (fuel + 1)) (fun _ => id) e
            { XMLName := name, Map := l1 ++ (key, .map []) :: l2 } =
          xmlMapLoop (MarshalXML iter (fuel + 1)) (fun _ => id) e
            { XMLName := name, Map := l1 ++ l2 }) ∧
      (∀ name (l1 l2 : GoMap) key e, l1 ++ l2 ≠ [] →
        MarshalXML (fun _ => id) (fuel + 2) { XMLName := name, Map := l1 ++ (key, .map []) :: l2 } e =
          MarshalXML (fun _ => id) (fuel + 2) { XMLName := name, Map := l1 ++ l2 } e) ∧
      (∀ name e, MarshalXML iter (fuel + 1) { XMLName := name, Map := [] } e = .ok e) := by
  refine ⟨xmlMapLoopBody_empty_map iter fuel, xmlMapLoopRange_skip_empty_map iter fuel,
    ?_, ?_, ?_⟩
  · intro name l1 l2 key e
    simp only [xmlMapLoop, id]
    exact xmlMapLoopRange_skip_empty_map iter fuel l1 l2 key e
  · intro name l1 l2 key e hne
    have h1 : ¬ (l1 ++ (key, Value.map []) :: l2).length = 0 := by simp
    have h2 : ¬ (l1 ++ l2).length = 0 := fun h0 => hne (List.length_eq_zero.mp h0)
    rw [MarshalXML, MarshalXML]
    simp only [h1, h2, if_false, xmlMapLoop, id,
      xmlMapLoopRange_skip_empty_map (fun _ => id) fuel l1 l2 key]
  · intro name e
    simp [MarshalXML]

/-- Witness of C14, amended: the record with entries `a` and `m`, `m` empty. -/
theorem xmlMapLoop_empty_map_witness :
    ([("a", Value.string "x")] ++ ([] : GoMap) ≠ []) ∧
      MarshalXML (fun _ => id) (0 + 2)
          { XMLName := "root", Map := [("a", .string "x")] ++ ("m", .map []) :: [] }
          { indent := false, out := [] } =
        MarshalXML (fun _ => id) (0 + 2) { XMLName := "root", Map := [("a", .string "x")] ++ [] }
          { indent := false, out := [] } ∧
      MarshalXML (fun _ => id) (0 + 2)
          { XMLName := "root", Map := [("a", .string "x")] ++ ("m", .map []) :: [] }
          { indent := false, out := [] } =
        .ok { indent := false,
              out := [.StartElement "root", .StartElement "a", .CharData "x",
                .EndElement "a", .EndElement "root"] } :=
  ⟨List.cons_ne_nil _ _,
    (xmlMapLoop_empty_map (fun _ => id) 0).2.2.2.1 "root" [("a", .string "x")] [] "m"
      { indent := false, out := [] } (List.cons_ne_nil _ _),
    by decide⟩

/-- A run of `XML` with a field that yields an empty mapping between two others:
the document holds the siblings and nothing for that field. -/
theorem XML_empty_map_sample :
    (XML sampleRegistry (fun _ => id) 2
        (sampleOptions "single" "root" "" 0 [("a", "word"), ("m", "emptymap"), ("b", "bool")])
        sampleWorld).outcome =
      .returned (some ⟨false,
        [.StartElement "root", .StartElement "a", .CharData "hello", .EndElement "a",
          .StartElement "b", .CharData "true", .EndElement "b",
          .EndElement "root"]⟩) none := by
  decide

/-! ## Iteration order -/

theorem xmlMapLoopBody_permRel (enc1 enc2 : xmlMap → Encoder → EncResult)
    (h : ∀ m, PermRel (enc1 m) (enc2 m)) (key : String) (value : Value) :
    PermRel (xmlMapLoopBody enc1 key value) (xmlMapLoopBody enc2 key value) := by
  intro e e2 e1 h1
  by_cases hv : ∃ m, value = .map m
  · obtain ⟨m, rfl⟩ := hv
    rw [xmlMapLoopBody_map] at h1
    rw [xmlMapLoopBody_map]
    exact h _ e e2 e1 h1
  · obtain ⟨ts, hts, hall⟩ := xmlMapLoopBody_not_map enc1 key value
      (fun m hm => hv ⟨m, hm⟩) e e1 h1
    exact ⟨ts, ts, hts, hall enc2 e2, List.Perm.refl _⟩

theorem xmlMapLoopRange_permRel_same (enc1 enc2 : xmlMap → Encoder → EncResult)
    (h : ∀ m, PermRel (enc1 m) (enc2 m)) (l : List (String × Value)) :
    PermRel (xmlMapLoopRange enc1 l) (xmlMapLoopRange enc2 l) := by
  induction l with
  | nil =>
    intro e e2 e1 h1
    simp only [xmlMapLoopRange, EncResult.ok.injEq] at h1
    exact ⟨[], [], by rw [← h1, write_nil], by simp [xmlMapLoopRange, write_nil],
      List.Perm.refl _⟩
  | cons kv rest ih =>
    obtain ⟨key, value⟩ := kv
    intro e e2 e1 h1
    simp only [xmlMapLoopRange] at h1
    cases h3 : xmlMapLoopBody enc1 key value e with
    | ok e0 =>
      rw [h3] at h1
      simp only at h1
      obtain ⟨c1, c2, hc1, hc2, hp⟩ := xmlMapLoopBody_permRel enc1 enc2 h key value e e2 e0 h3
      obtain ⟨t1, t2, ht1, ht2, hq⟩ := ih e0 (e2.write c2) e1 h1
      refine ⟨c1 ++ t1, c2 ++ t2, ?_, ?_, List.Perm.append hp hq⟩
      · rw [ht1, hc1, write_write]
      · simp only [xmlMapLoopRange, hc2, ht2, write_write]
    | error err => rw [h3] at h1; simp at h1
    | panic msg => rw [h3] at h1; simp at h1
    | outOfFuel => rw [h3] at h1; simp at h1

theorem xmlMapLoopRange_permRel (l1 l2 : List (String × Value)) (hperm : l1.Perm l2) :
    ∀ enc1 enc2 : xmlMap → Encoder → EncResult,
      (∀ m, PermRel (enc1 m) (enc2 m)) → (∀ m, PermRel (enc2 m) (enc2 m)) →
        PermRel (xmlMapLoopRange enc1 l1) (xmlMapLoopRange enc2 l2) := by
  induction hperm with
  | nil =>
    intro enc1 enc2 h12 _
    exact xmlMapLoopRange_permRel_same enc1 enc2 h12 []
  | @cons kv l1 l2 _ ih =>
    obtain ⟨key, value⟩ := kv
    intro enc1 enc2 h12 h22 e e2 e1 h1
    simp only [xmlMapLoopRange] at h1
    cases h3 : xmlMapLoopBody enc1 key value e with
    | ok e0 =>
      rw [h3] at h1
      simp only at h1
      obtain ⟨c1, c2, hc1, hc2, hp⟩ :=
        xmlMapLoopBody_permRel enc1 enc2 h12 key value e e2 e0 h3
      obtain ⟨t1, t2, ht1, ht2, hq⟩ := ih enc1 enc2 h12 h22 e0 (e2.write c2) e1 h1
      refine ⟨c1 ++ t1, c2 ++ t2, ?_, ?_, List.Perm.append hp hq⟩
      · rw [ht1, hc1, write_write]
      · simp only [xmlMapLoopRange, hc2, ht2, write_write]
    | error err => rw [h3] at h1; simp at h1
    | panic msg => rw [h3] at h1; simp at h1
    | outOfFuel => rw [h3] at h1; simp at h1
  | swap x y l =>
    obtain ⟨kx, vx⟩ := x
    obtain ⟨ky, vy⟩ := y
    intro enc1 enc2 h12 _ e e2 e1 h1
    simp only [xmlMapLoopRange] at h1
    cases h3 : xmlMapLoopBody enc1 ky vy e with
    | ok ea =>
      rw [h3] at h1
      simp only at h1
      cases h4 : xmlMapLoopBody enc1 kx vx ea with
      | ok eb =>
        rw [h4] at h1
        simp only at h1
        obtain ⟨cx1, cx2, hcx1, hcx2, hpx⟩ :=
          xmlMapLoopBody_permRel enc1 enc2 h12 kx vx ea e2 eb h4
        obtain ⟨cy1, cy2, hcy1, hcy2, hpy⟩ :=
          xmlMapLoopBody_permRel enc1 enc2 h12 ky vy e (e2.write cx2) ea h3
        obtain ⟨t1, t2, ht1, ht2, hq⟩ :=
          xmlMapLoopRange_permRel_same enc1 enc2 h12 l eb ((e2.write cx2).write cy2) e1 h1
        refine ⟨cy1 ++ (cx1 ++ t1), cx2 ++ (cy2 ++ t2), ?_, ?_, ?_⟩
        · rw [ht1, hcx1, hcy1, write_write, write_write]
        · simp only [xmlMapLoopRange, hcx2, hcy2]
          rw [ht2, write_write, write_write]
        · have hswap : (cy1 ++ (cx1 ++ t1)).Perm (cx1 ++ (cy1 ++ t1)) := by
            rw [← List.append_assoc, ← List.append_assoc]
            exact List.Perm.append List.perm_append_comm (List.Perm.refl _)
          exact hswap.trans (List.Perm.append hpx (List.Perm.append hpy hq))
      | error err => rw [h4] at h1; simp at h1
      | panic msg => rw [h4] at h1; simp at h1
      | outOfFuel => rw [h4] at h1; simp at h1
    | error err => rw [h3] at h1; simp at h1
    | panic msg => rw [h3] at h1; simp at h1
    | outOfFuel => rw [h3] at h1; simp at h1
  | trans _ _ ih1 ih2 =>
    intro enc1 enc2 h12 h22 e e2 e1 h1
    obtain ⟨t1, t2, ht1, ht2, hp⟩ := ih1 enc1 enc2 h12 h22 e e2 e1 h1
    obtain ⟨t2b, t3, ht2b, ht3, hq⟩ := ih2 enc2 enc2 h22 h22 e2 e2 _ ht2
    have heq : t2 = t2b := write_inj ht2b
    subst heq
    exact ⟨t1, t3, ht1, ht3, hp.trans hq⟩

theorem MarshalXML_permRel (fuel : Nat) :
    ∀ iter1 iter2 : Encoder → GoMap → GoMap,
      (∀ e l, (iter1 e l).Perm l) → (∀ e l, (iter2 e l).Perm l) →
        ∀ m, PermRel (MarshalXML iter1 fuel m) (MarshalXML iter2 fuel m) := by
  induction fuel with
  | zero =>
    intro iter1 iter2 _ _ m e e2 e1 he
    simp [MarshalXML] at he
  | succ fuel ih =>
    intro iter1 iter2 h1 h2 m e e2 e1 he
    by_cases hm : m.Map = []
    · rw [MarshalXML_nil iter1 fuel m e hm] at he
      simp only [EncResult.ok.injEq] at he
      exact ⟨[], [], by rw [← he, write_nil],
        by rw [MarshalXML_nil iter2 fuel m e2 hm, write_nil], List.Perm.refl _⟩
    · by_cases hn : m.XMLName = ""
      · rw [MarshalXML_noname iter1 fuel m e hm hn] at he
        simp at he
      · rw [MarshalXML_succ iter1 fuel m e hm hn] at he
        cases h3 : xmlMapLoopRange (MarshalXML iter1 fuel)
            (iter1 (e.write [Token.StartElement m.XMLName]) m.Map)
            (e.write [Token.StartElement m.XMLName]) with
        | ok e0 =>
          rw [h3] at he
          simp only [EncResult.ok.injEq] at he
          obtain ⟨t1, t2, ht1, ht2, hp⟩ := xmlMapLoopRange_permRel
            (iter1 (e.write [Token.StartElement m.XMLName]) m.Map)
            (iter2 (e2.write [Token.StartElement m.XMLName]) m.Map)
            ((h1 _ _).trans (h2 _ _).symm)
            (MarshalXML iter1 fuel) (MarshalXML iter2 fuel)
            (ih iter1 iter2 h1 h2) (ih iter2 iter2 h2 h2)
            _ (e2.write [Token.StartElement m.XMLName]) _ h3
          refine ⟨Token.StartElement m.XMLName :: t1 ++ [Token.EndElement m.XMLName],
            Token.StartElement m.XMLName :: t2 ++ [Token.EndElement m.XMLName], ?_, ?_, ?_⟩
          · rw [← he, ht1, write_write, write_write]
            rfl
          · rw [MarshalXML_succ iter2 fuel m e2 hm hn, ht2]
            simp only [write_write]
            rfl
          · exact List.Perm.append (List.Perm.cons _ hp) (List.Perm.refl _)
        | error err => rw [h3] at he; simp at he
        | panic msg => rw [h3] at he; simp at he
        | outOfFuel => rw [h3] at he; simp at he

/-- Two equal records of one array document visited in different orders: the
order is picked at each `range` statement, here insertion order for the first
record and the reverse for the second. -/
theorem XML_array_orders_differ :
    (XML sampleRegistry (fun e l => if e.out.length ≤ 2 then l else l.reverse) 1
        (sampleOptions "array" "root" "rec" 2 [("a", "word"), ("b", "bool")])
        sampleWorld).outcome =
      .returned (some ⟨false,
        [.StartElement "root",
          .StartElement "rec", .StartElement "a", .CharData "hello", .EndElement "a",
          .StartElement "b", .CharData "true", .EndElement "b", .EndElement "rec",
          .StartElement "rec", .StartElement "b", .CharData "true", .EndElement "b",
          .StartElement "a", .CharData "hello", .EndElement "a", .EndElement "rec",
          .EndElement "root"]⟩) none := by
  decide

/-- C15 as stated fails: the record `sampleRecord` encoded with the entries
visited in insertion order and in the reverse order gives two different
outputs. -/
theorem MarshalXML_order_dependent :
    MarshalXML (fun _ => id) 1 sampleRecord { indent := false, out := [] } =
        .ok { indent := false,
              out := [.StartElement "root",
                .StartElement "a", .CharData "x", .EndElement "a",
                .StartElement "b", .CharData "y", .EndElement "b",
                .EndElement "root"] } ∧
      MarshalXML (fun _ => List.reverse) 1 sampleRecord { indent := false, out := [] } =
        .ok { indent := false,
              out := [.StartElement "root",
                .StartElement "b", .CharData "y", .EndElement "b",
                .StartElement "a", .CharData "x", .EndElement "a",
                .EndElement "root"] } ∧
      MarshalXML (fun _ => id) 1 sampleRecord { indent := false, out := [] } ≠
        MarshalXML (fun _ => List.reverse) 1 sampleRecord { indent := false, out := [] } := by
  refine ⟨by decide, by decide, by decide⟩

/-- C15, amended: the output is a function of the record and of the order in
which the entries of each mapping are visited.  For two iteration orders, when
the encoding under one ends normally so does the encoding under the other, with
the same indent setting and the same tokens in a possibly different order. -/
theorem MarshalXML_iteration_order (iter1 iter2 : Encoder → GoMap → GoMap)
    (h1 : ∀ e l, (iter1 e l).Perm l) (h2 : ∀ e l, (iter2 e l).Perm l) (fuel : Nat)
    (m : xmlMap) (e e1 : Encoder) (h : MarshalXML iter1 fuel m e = .ok e1) :
    ∃ e2, MarshalXML iter2 fuel m e = .ok e2 ∧ e2.indent = e1.indent ∧
      e1.out.Perm e2.out := by
  obtain ⟨t1, t2, ht1, ht2, hp⟩ := MarshalXML_permRel fuel iter1 iter2 h1 h2 m e e e1 h
  refine ⟨e.write t2, ht2, ?_, ?_⟩
  · rw [ht1]
    rfl
  · rw [ht1]
    exact List.Perm.append (List.Perm.refl _) hp

/-- Witness of C15, amended: insertion order against the reverse order. -/
theorem MarshalXML_iteration_order_witness :
    MarshalXML (fun _ => id) 1 sampleRecord { indent := false, out := [] } =
        .ok { indent := false,
              out := [.StartElement "root",
                .StartElement "a", .CharData "x", .EndElement "a",
                .StartElement "b", .CharData "y", .EndElement "b",
                .EndElement "root"] } ∧
      ∃ e2, MarshalXML (fun _ => List.reverse) 1 sampleRecord
            { indent := false, out := [] } = .ok e2 ∧
        e2.indent = false ∧
        [Token.StartElement "root",
          .StartElement "a", .CharData "x", .EndElement "a",
          .StartElement "b", .CharData "y", .EndElement "b",
          .EndElement "root"].Perm e2.out :=
  ⟨by decide,
    MarshalXML_iteration_order (fun _ => id) (fun _ => List.reverse)
      (fun _ l => List.Perm.refl l) (fun _ l => List.reverse_perm l) 1 sampleRecord
      { indent := false, out := [] }
      { indent := false,
        out := [.StartElement "root",
          .StartElement "a", .CharData "x", .EndElement "a",
          .StartElement "b", .CharData "y", .EndElement "b",
          .EndElement "root"] }
      (by decide)⟩

/-! ## The options after the call -/

theorem XML_xo {P σ : Type} (reg : Registry P σ) (iter : Encoder → GoMap → GoMap) (fuel : Nat)
    (xo : XMLOptions P) (w : World σ) :
    (XML reg iter fuel xo w).xo = xo ∨ (XML reg iter fuel xo w).xo = applyDefaults xo := by
  unfold XML
  split
  · exact Or.inl rfl
  · split
    · exact Or.inl rfl
    · dsimp only
      split
      · split <;> exact Or.inr rfl
      · split
        · split
          · exact Or.inr rfl
          · split <;> exact Or.inr rfl
        · exact Or.inr rfl

theorem XML_xo_valid {P σ : Type} (reg : Registry P σ) (iter : Encoder → GoMap → GoMap) (fuel : Nat)
    (xo : XMLOptions P) (w : World σ) (f : Field P) (fs : List (Field P))
    (hT : xo.Type_ = "single" ∨ xo.Type_ = "array") (hF : xo.Fields = some (f :: fs)) :
    (XML reg iter fuel xo w).xo = applyDefaults xo := by
  have h1 : ¬ (xo.Type_ ≠ "single" ∧ xo.Type_ ≠ "array") := by
    rcases hT with h | h <;> simp [h]
  have h2 : ¬ (xo.Fields.isNone ∨ sliceLen xo.Fields ≤ 0) := by
    simp only [hF, sliceLen, sliceElems, Option.isNone_some, List.length_cons]
    push_cast
    intro h
    rcases h with h | h
    · exact absurd h (by decide)
    · omega
  unfold XML
  rw [if_neg h1, if_neg h2]
  dsimp only
  split
  · split <;> rfl
  · split
    · split
      · rfl
      · split <;> rfl
    · rfl

/-- C16 as stated fails: a valid request with an empty `RecordElement` (and a
`RootElement` that is set) comes back with `RecordElement` overwritten by
`record`. -/
theorem XML_overwrites_RecordElement :
    (sampleOptions "single" "root" "" 0 [("a", "word")]).RecordElement = "" ∧
      (XML sampleRegistry (fun _ => id) 1 (sampleOptions "single" "root" "" 0 [("a", "word")])
        sampleWorld).xo.RecordElement = "record" := by
  refine ⟨by decide, by decide⟩

/-- C16, amended: `XML` leaves `Type`, `RootElement`, `RowCount`, `Fields` and
`Indent` as they were, whatever the outcome.  `RecordElement` is left as it was
when it and `RootElement` are both non-empty; when it is empty, `RootElement` is
not, and the type and the fields pass validation, `XML` writes the default
`record` into the options it was given. -/
theorem XML_options_frame {P σ : Type} (reg : Registry P σ) (iter : Encoder → GoMap → GoMap)
    (fuel : Nat) (xo : XMLOptions P) (w : World σ) :
    (XML reg iter fuel xo w).xo.Type_ = xo.Type_ ∧
      (XML reg iter fuel xo w).xo.RootElement = xo.RootElement ∧
      (XML reg iter fuel xo w).xo.RowCount = xo.RowCount ∧
      (XML reg iter fuel xo w).xo.Fields = xo.Fields ∧
      (XML reg iter fuel xo w).xo.Indent = xo.Indent ∧
      (xo.RootElement ≠ "" → xo.RecordElement ≠ "" →
        (XML reg iter fuel xo w).xo.RecordElement = xo.RecordElement) ∧
      (xo.RootElement ≠ "" → xo.RecordElement = "" →
        (xo.Type_ = "single" ∨ xo.Type_ = "array") →
        (∃ f fs, xo.Fields = some (f :: fs)) →
        (XML reg iter fuel xo w).xo.RecordElement = "record") := by
  refine ⟨?_, ?_, ?_, ?_, ?_, ?_, ?_⟩
  · rcases XML_xo reg iter fuel xo w with h | h <;> rw [h]
    exact applyDefaults_Type xo
  · rcases XML_xo reg iter fuel xo w with h | h <;> rw [h]
    exact applyDefaults_RootElement xo
  · rcases XML_xo reg iter fuel xo w with h | h <;> rw [h]
    exact applyDefaults_RowCount xo
  · rcases XML_xo reg iter fuel xo w with h | h <;> rw [h]
    exact applyDefaults_Fields xo
  · rcases XML_xo reg iter fuel xo w with h | h <;> rw [h]
    exact applyDefaults_Indent xo
  · intro hroot hrec
    rcases XML_xo reg iter fuel xo w with h | h <;> rw [h]
    rw [applyDefaults_RecordElement, if_neg hroot, if_neg hrec]
  · intro hroot hrec hT hF
    obtain ⟨f, fs, hF⟩ := hF
    rw [XML_xo_valid reg iter fuel xo w f fs hT hF, applyDefaults_RecordElement,
      if_neg hroot, if_pos hrec]

/-- Witness of C16, amended: both element names set, nothing changes. -/
theorem XML_options_frame_witness :
    ((sampleOptions "single" "root" "item" 0 [("a", "word")]).RootElement ≠ "" ∧
        (sampleOptions "single" "root" "item" 0 [("a", "word")]).RecordElement ≠ "") ∧
      (XML sampleRegistry (fun _ => id) 1 (sampleOptions "single" "root" "item" 0 [("a", "word")])
        sampleWorld).xo.RecordElement =
        (sampleOptions "single" "root" "item" 0 [("a", "word")]).RecordElement :=
  ⟨⟨by decide, by decide⟩,
    (XML_options_frame sampleRegistry (fun _ => id) 1
      (sampleOptions "single" "root" "item" 0 [("a", "word")]) sampleWorld).2.2.2.2.2.1
      (by decide) (by decide)⟩

/-! ## The array handed to the encoder -/

theorem assembleArray_length {P σ : Type} (reg : Registry P σ) (xo : XMLOptions P)
    (w w1 : World σ) (xa : xmlArray) (f : Field P) (fs : List (Field P))
    (hF : xo.Fields = some (f :: fs))
    (h : assembleArray reg xo w = (.ok xa, w1)) :
    xa.Array.length = 2 * xo.RowCount.toNat := by
  unfold assembleArray at h
  obtain ⟨recs, h1, -, h3, -⟩ := arrayLoop_ok reg xo (by rw [hF]; simp [sliceElems])
    _ _ _ _ _ _ h
  rw [h1]
  simp only [List.length_append, List.length_replicate, h3]
  omega

/-- C17, at the failing input: the request `sampleArrayOptions` with
`RowCount = 2`.  `make([]xmlMap, xo.RowCount)` already holds two zero-valued
entries when the row loop appends its two records, so the array handed to the
encoder holds four entries, the first two with no field at all. -/
theorem assembleArray_sample_length :
    assembleArray sampleRegistry (applyDefaults sampleArrayOptions) sampleWorld =
        (.ok sampleArrayResult, sampleArrayWorld) ∧
      sampleArrayOptions.RowCount = 2 ∧
      sampleArrayResult.Array.length = 4 ∧
      sampleArrayResult.Array.map (fun m => m.Map.length) = [0, 0, 2, 2] := by
  refine ⟨rfl, by decide, by decide, by decide⟩

/-! ## `autoincrement` in single-record mode -/

theorem singleLoop_log_mono {P σ : Type} (reg : Registry P σ) (fs : List (Field P))
    (v : xmlMap) (w : World σ) (ev : RegistryEvent) (h : ev ∈ w.log) :
    ev ∈ (singleLoop reg fs v w).2.log := by
  induction fs generalizing v w with
  | nil => exact h
  | cons f rest ih =>
    simp only [singleLoop, GetFuncLookup, callGenerator]
    split
    · rename_i w1 heq
      simp only [Prod.mk.injEq] at heq
      rw [← heq.2]
      exact List.mem_append_left _ h
    · rename_i info w1 heq
      simp only [Prod.mk.injEq] at heq
      split
      · rename_i w2 heq2
        simp only [Prod.mk.injEq] at heq2
        rw [← heq2.2]
        simp only
        rw [← heq.2]
        exact List.mem_append_left _ (List.mem_append_left _ h)
      · rename_i w2 heq2
        simp only [Prod.mk.injEq] at heq2
        apply ih
        rw [← heq2.2]
        simp only
        rw [← heq.2]
        exact List.mem_append_left _ (List.mem_append_left _ h)

theorem singleLoop_logs_lookup {P σ : Type} (reg : Registry P σ) (f : Field P)
    (post : List (Field P)) (v : xmlMap) (w : World σ) :
    RegistryEvent.lookup f.Function ∈ (singleLoop reg (f :: post) v w).2.log := by
  simp only [singleLoop, GetFuncLookup, callGenerator]
  split
  · rename_i w1 heq
    simp only [Prod.mk.injEq] at heq
    rw [← heq.2]
    simp
  · rename_i info w1 heq
    simp only [Prod.mk.injEq] at heq
    split
    · rename_i w2 heq2
      simp only [Prod.mk.injEq] at heq2
      rw [← heq2.2]
      simp only
      rw [← heq.2]
      simp
    · rename_i w2 heq2
      simp only [Prod.mk.injEq] at heq2
      apply singleLoop_log_mono
      rw [← heq2.2]
      simp only
      rw [← heq.2]
      simp

theorem XML_single_world {P σ : Type} (reg : Registry P σ) (iter : Encoder → GoMap → GoMap)
    (fuel : Nat) (xo : XMLOptions P) (w : World σ) (fs : List (Field P))
    (hT : xo.Type_ = "single") (hF : xo.Fields = some fs) (hne : fs ≠ []) :
    (XML reg iter fuel xo w).world = (assembleSingle reg (applyDefaults xo) w).2 := by
  rw [XML_single_eq reg iter fuel xo w fs hT hF hne]
  rcases assembleSingle reg (applyDefaults xo) w with ⟨r, w1⟩
  cases r <;> rfl

/-- C18: in a valid single-shape request, a field whose function is
`autoincrement`, reached in this run after the fields before it resolved and
succeeded, is looked up in the registry like any other name; when the registry
does not hold it, `XML` returns nil bytes and the unknown-function error
`Invalid function, autoincrement does not exist`, with no index value. -/
theorem XML_single_autoincrement {P σ : Type} (reg : Registry P σ)
    (iter : Encoder → GoMap → GoMap) (fuel : Nat) (xo : XMLOptions P) (w w1 : World σ)
    (pre post : List (Field P)) (f : Field P) (v1 : xmlMap)
    (hT : xo.Type_ = "single") (hF : xo.Fields = some (pre ++ f :: post))
    (hf : f.Function = "autoincrement")
    (hpre : singleLoop reg pre { XMLName := xo.RootElement, Map := [] } w = (.ok v1, w1)) :
    RegistryEvent.lookup "autoincrement" ∈ (XML reg iter fuel xo w).world.log ∧
      (reg "autoincrement" = none →
        (XML reg iter fuel xo w).outcome =
          .returned none (some ⟨"Invalid function, autoincrement does not exist"⟩)) := by
  have hne : pre ++ f :: post ≠ [] := by simp
  have hasm : assembleSingle reg (applyDefaults xo) w = singleLoop reg (f :: post) v1 w1 := by
    unfold assembleSingle
    rw [applyDefaults_Fields, hF, applyDefaults_RootElement]
    simp only [sliceElems]
    rw [singleLoop_append, hpre]
  constructor
  · rw [XML_single_world reg iter fuel xo w _ hT hF hne, hasm, ← hf]
    exact singleLoop_logs_lookup reg f post v1 w1
  · intro hreg
    rw [XML_single_eq reg iter fuel xo w _ hT hF hne, hasm]
    simp only [singleLoop, GetFuncLookup, hf, hreg, errorsNew]
    rfl

/-- Witness of C18: the second field of a single request is `autoincrement`. -/
theorem XML_single_autoincrement_witness :
    sampleRegistry "autoincrement" = none ∧
      RegistryEvent.lookup "autoincrement" ∈
        (XML sampleRegistry (fun _ => id) 1
          (sampleOptions "single" "root" "" 0 [("a", "word"), ("id", "autoincrement")])
          sampleWorld).world.log ∧
      (XML sampleRegistry (fun _ => id) 1
          (sampleOptions "single" "root" "" 0 [("a", "word"), ("id", "autoincrement")])
          sampleWorld).outcome =
        .returned none (some ⟨"Invalid function, autoincrement does not exist"⟩) :=
  ⟨rfl,
    (XML_single_autoincrement sampleRegistry (fun _ => id) 1
      (sampleOptions "single" "root" "" 0 [("a", "word"), ("id", "autoincrement")])
      sampleWorld { rand := (), log := [.lookup "word", .call "word"] }
      [{ Name := "a", Function := "word", Params := () }] []
      { Name := "id", Function := "autoincrement", Params := () }
      { XMLName := "root", Map := [("a", .string "hello")] } rfl rfl rfl rfl).1,
    (XML_single_autoincrement sampleRegistry (fun _ => id) 1
      (sampleOptions "single" "root" "" 0 [("a", "word"), ("id", "autoincrement")])
      sampleWorld { rand := (), log := [.lookup "word", .call "word"] }
      [{ Name := "a", Function := "word", Params := () }] []
      { Name := "id", Function := "autoincrement", Params := () }
      { XMLName := "root", Map := [("a", .string "hello")] } rfl rfl rfl rfl).2 rfl⟩
/-! ## Maps of another type -/

/-- C19: an entry whose value is a map of a type other than
`map[string]interface{}` makes the loop body, and so the loop, end in a panic
with the message of the failed type assertion; `XML` then returns neither bytes
nor an error.  For a `map[string]interface{}` the assertion succeeds and the
nested map goes to `MarshalXML`.  Two runs of `XML` show both. -/
theorem xmlMapLoop_typed_map_panics :
    (∀ (encodeMap : xmlMap → Encoder → EncResult) (key typ : String) (e : Encoder),
        xmlMapLoopBody encodeMap key (.mapOther typ) e =
          .panic ("interface conversion: interface {} is " ++ typ ++
            ", not map[string]interface {}")) ∧
      (∀ (encodeMap : xmlMap → Encoder → EncResult) (key typ : String)
          (rest : List (String × Value)) (e : Encoder),
        xmlMapLoopRange encodeMap ((key, .mapOther typ) :: rest) e =
          .panic ("interface conversion: interface {} is " ++ typ ++
            ", not map[string]interface {}")) ∧
      (∀ msg, finish (.panic msg) = .panicked msg) ∧
      (∀ (encodeMap : xmlMap → Encoder → EncResult) (key : String) (m : GoMap) (e : Encoder),
        (Value.map m).assertMap = some m ∧
          xmlMapLoopBody encodeMap key (.map m) e =
            encodeMap { XMLName := key, Map := m } e) ∧
      (XML typedMapRegistry (fun _ => id) 1 (sampleOptions "single" "root" "" 0 [("m", "stringmap")])
          sampleWorld).outcome =
        .panicked
          "interface conversion: interface {} is map[string]string, not map[string]interface {}" ∧
      (XML typedMapRegistry (fun _ => id) 2 (sampleOptions "single" "root" "" 0 [("m", "anymap")])
          sampleWorld).outcome =
        .returned (some ⟨false,
          [.StartElement "root", .StartElement "m", .StartElement "k", .CharData "v",
            .EndElement "k", .EndElement "m", .EndElement "root"]⟩) none := by
  refine ⟨?_, ?_, ?_, ?_, by decide, by decide⟩
  · intro encodeMap key typ e
    rfl
  · intro encodeMap key typ rest e
    rfl
  · intro msg
    rfl
  · intro encodeMap key m e
    exact ⟨rfl, rfl⟩

/-! ## `sentenceSimple` -/

/-- C20: `sentenceSimple` draws the noun phrase `n`, then the verb phrase `v`,
and returns `n + " " + v + "."` with its first character replaced by the
upper-case form of that character and the rest as it was.  The string has a
first character and at least one more, so `strR[0]` is in range. -/
theorem sentenceSimple_capitalized {ρ : Type} (phraseNoun phraseVerb : ρ → String × ρ)
    (ToUpper : Char → Char) (r : ρ) :
    ∃ c rest,
      ((phraseNoun r).1 ++ " " ++ (phraseVerb (phraseNoun r).2).1 ++ ".").data = c :: rest ∧
      rest ≠ [] ∧
      sentenceSimple phraseNoun phraseVerb ToUpper r =
        (some (String.mk (ToUpper c :: rest)), (phraseVerb (phraseNoun r).2).2) := by
  have hdata : ((phraseNoun r).1 ++ " " ++ (phraseVerb (phraseNoun r).2).1 ++ ".").data =
      (phraseNoun r).1.data ++ ' ' :: ((phraseVerb (phraseNoun r).2).1.data ++ ['.']) := by
    simp [String.data_append]
  cases hn : (phraseNoun r).1.data with
  | nil =>
    rw [hn] at hdata
    refine ⟨' ', (phraseVerb (phraseNoun r).2).1.data ++ ['.'], hdata, by simp, ?_⟩
    simp only [sentenceSimple]
    rw [hdata]
    rfl
  | cons c cs =>
    rw [hn] at hdata
    refine ⟨c, cs ++ ' ' :: ((phraseVerb (phraseNoun r).2).1.data ++ ['.']), hdata,
      by simp, ?_⟩
    simp only [sentenceSimple]
    rw [hdata]
    rfl

/-- A run of `sentenceSimple` on a counter as random source, with the ASCII
upper-casing of Lean for `unicode.ToUpper`. -/
theorem sentenceSimple_sample :
    sentenceSimple (fun r : Nat => ("the cat", r + 1)) (fun r : Nat => ("runs", r + 1))
        Char.toUpper 0 = (some "The cat runs.", 2) := by
  decide

end Gofakeit
